import Mathlib

/-!
A verification development for the immutable chat-tree core of the
`tree-chat` repository.  The TypeScript data model (`Message`, `ChatNode`,
`ChatTree`) and its pure state-transition functions (`createEmptyTree`,
`addChild`, `toggleCollapse`, `setActiveNode`, `appendMessage`,
`renameNode`, `deleteSubtree`) are embedded shallowly: the JavaScript
object map `Record<string, ChatNode>` becomes an insertion-ordered
association list, object spread `{...m, [k]: v}` becomes `updateOrAppend`,
and `Date.now()` / `crypto.randomUUID()` results are passed explicitly as
arguments.  The undo snapshot helpers `captureDeletedSubtree` and
`restoreDeletedSubtree` from `App.tsx` are embedded as well.
-/

/-- Embeds the TypeScript union type `Role = "system" | "user" | "assistant"`. -/
inductive Role : Type
  | system : Role
  | user : Role
  | assistant : Role
deriving DecidableEq, Repr

/-- Embeds the TypeScript type `Message`. -/
structure Message : Type where
  id : String
  role : Role
  content : String
  createdAt : Nat
deriving DecidableEq, Repr

/-- Embeds the TypeScript type `ChatNode`. -/
structure ChatNode : Type where
  id : String
  title : String
  parentId : Option String
  childrenIds : List String
  isCollapsed : Bool
  messages : List Message
  createdAt : Nat
  updatedAt : Nat
deriving DecidableEq, Repr

/-- The JavaScript object `Record<string, ChatNode>`, modelled as an
insertion-ordered association list (JS objects with non-numeric keys
iterate in insertion order). -/
abbrev NodeMap : Type := List (String × ChatNode)

/-- Embeds the TypeScript type `ChatTree`. -/
structure ChatTree : Type where
  rootId : String
  activeNodeId : String
  nodes : NodeMap
deriving DecidableEq, Repr

/-- Property access `m[k]` on a JS object: the value at the first entry
with key `k`, if any. -/
def getNode : NodeMap → String → Option ChatNode
  | [], _ => none
  | e :: rest, key => if e.1 = key then some e.2 else getNode rest key

/-- The key list of a node map. -/
def keysOf (m : NodeMap) : List String := m.map Prod.fst

/-- The JS object spread update `{...m, [k]: v}`: if `k` is already a key
it keeps its position and gets the new value, otherwise the entry is
appended at the end (JS insertion-order semantics). -/
def updateOrAppend (m : NodeMap) (k : String) (v : ChatNode) : NodeMap :=
  if (getNode m k).isSome then
    m.map (fun e => if e.1 = k then (k, v) else e)
  else m ++ [(k, v)]

/-- The JS object spread merge `{...m, ...extra}`: every entry of `extra`
is written over `m` in order. -/
def spreadMerge (m extra : NodeMap) : NodeMap :=
  extra.foldl (fun acc e => updateOrAppend acc e.1 e.2) m

/-- Embeds `createEmptyTree` from the tree core.  The generated
`crypto.randomUUID()` and `Date.now()` samples are passed in as `rootId`
and `t`. -/
def createEmptyTree (rootId : String) (t : Nat) : ChatTree :=
  { rootId := rootId
    activeNodeId := rootId
    nodes := [(rootId, { id := rootId, title := "Root", parentId := none,
                         childrenIds := [], isCollapsed := false, messages := [],
                         createdAt := t, updatedAt := t })] }

/-- Embeds `addChild` from the tree core.  `childId` and `t` stand for the
fresh id and timestamp sampled inside the function. -/
def addChild (tree : ChatTree) (parentId : String) (childId : String) (t : Nat) : ChatTree :=
  match getNode tree.nodes parentId with
  | none => tree
  | some parent =>
    let child : ChatNode :=
      { id := childId, title := "New thread", parentId := some parentId,
        childrenIds := [], isCollapsed := false, messages := [],
        createdAt := t, updatedAt := t }
    { tree with
      activeNodeId := childId
      nodes :=
        updateOrAppend
          (updateOrAppend tree.nodes parentId
            { parent with childrenIds := parent.childrenIds ++ [childId], updatedAt := t })
          childId child }

/-- Embeds `toggleCollapse` from the tree core. -/
def toggleCollapse (tree : ChatTree) (nodeId : String) (t : Nat) : ChatTree :=
  match getNode tree.nodes nodeId with
  | none => tree
  | some node =>
    { tree with
      nodes := updateOrAppend tree.nodes nodeId
        { node with isCollapsed := !node.isCollapsed, updatedAt := t } }

/-- Embeds `setActiveNode` from the tree core. -/
def setActiveNode (tree : ChatTree) (nodeId : String) : ChatTree :=
  if (getNode tree.nodes nodeId).isSome then { tree with activeNodeId := nodeId }
  else tree

/-- JS `content.slice(0, n)`: the first `n` characters of a string,
modelled on its character list. -/
def sliceTo (s : String) (n : Nat) : String := String.mk (s.data.take n)

/-- JS `title.trim()`: leading and trailing whitespace removed, modelled
on the string's character list. -/
def jsTrim (s : String) : String :=
  String.mk (((s.data.dropWhile Char.isWhitespace).reverse.dropWhile Char.isWhitespace).reverse)

/-- Embeds `appendMessage` from the tree core.  `msgId`, `msgTime` and `t`
stand for the fresh message id and the two `Date.now()` samples. -/
def appendMessage (tree : ChatTree) (nodeId : String) (role : Role) (content : String)
    (msgId : String) (msgTime : Nat) (t : Nat) : ChatTree :=
  match getNode tree.nodes nodeId with
  | none => tree
  | some node =>
    let msg : Message := { id := msgId, role := role, content := content, createdAt := msgTime }
    { tree with
      nodes := updateOrAppend tree.nodes nodeId
        { node with
          messages := node.messages ++ [msg]
          updatedAt := t
          title :=
            if node.title = "New thread" ∧ role = Role.user then sliceTo content 30
            else node.title } }

/-- Embeds `renameNode` from the tree core; `title.trim() || "Untitled"`
becomes a test against the empty string. -/
def renameNode (tree : ChatTree) (nodeId : String) (title : String) (t : Nat) : ChatTree :=
  match getNode tree.nodes nodeId with
  | none => tree
  | some node =>
    { tree with
      nodes := updateOrAppend tree.nodes nodeId
        { node with
          title := if jsTrim title = "" then "Untitled" else jsTrim title
          updatedAt := t } }

/-- The subtree-collection worklist of `deleteSubtree`: an explicit stack
(top at the head; JS pushes children in order and pops the last one, so a
node's children are prepended reversed) and a visited set `acc`.  The id
is recorded before the node lookup, exactly as in the source. -/
def collectLoop (nodes : NodeMap) : List String → List String → List String
  | [], acc => acc
  | curId :: stack, acc =>
    if hmem : curId ∈ acc then collectLoop nodes stack acc
    else
      match hcur : getNode nodes curId with
      | none => collectLoop nodes stack (curId :: acc)
      | some cur => collectLoop nodes (cur.childrenIds.reverse ++ stack) (curId :: acc)
termination_by stack acc => (((keysOf nodes).toFinset \ acc.toFinset).card, stack.length)
decreasing_by
  · exact Prod.Lex.right _ (by simp only [List.length_cons]; omega)
  · have mem_isSome : ∀ (m : NodeMap), curId ∈ keysOf m → (getNode m curId).isSome := by
      intro m
      induction m with
      | nil => intro h; exact absurd h (List.not_mem_nil _)
      | cons hd tl ih =>
        intro h
        unfold getNode
        by_cases hhd : hd.1 = curId
        · rw [if_pos hhd]; rfl
        · rw [if_neg hhd]
          apply ih
          unfold keysOf at h
          rw [List.map_cons] at h
          rcases List.mem_cons.mp h with h1 | h1
          · exact absurd h1.symm hhd
          · exact h1
    have hk : curId ∉ keysOf nodes := by
      intro hc
      have h2 := mem_isSome nodes hc
      rw [hcur] at h2
      exact Bool.noConfusion h2
    have heq : (keysOf nodes).toFinset \ (curId :: acc).toFinset
        = (keysOf nodes).toFinset \ acc.toFinset := by
      rw [List.toFinset_cons, Finset.sdiff_insert, Finset.erase_eq_of_not_mem]
      intro hmem2
      rw [Finset.mem_sdiff, List.mem_toFinset] at hmem2
      exact hk hmem2.1
    rw [heq]
    exact Prod.Lex.right _ (by simp only [List.length_cons]; omega)
  · have mem_keys : ∀ (m : NodeMap) (v : ChatNode), getNode m curId = some v → curId ∈ keysOf m := by
      intro m
      induction m with
      | nil => intro v h; exact Option.noConfusion h
      | cons hd tl ih =>
        intro v h
        unfold getNode at h
        unfold keysOf
        rw [List.map_cons]
        by_cases hhd : hd.1 = curId
        · exact List.mem_cons.mpr (Or.inl hhd.symm)
        · rw [if_neg hhd] at h
          exact List.mem_cons_of_mem _ (ih v h)
    apply Prod.Lex.left
    apply Finset.card_lt_card
    constructor
    · apply Finset.sdiff_subset_sdiff (le_refl _)
      rw [List.toFinset_cons]
      exact Finset.subset_insert _ _
    · intro hsub
      have h1 : curId ∈ (keysOf nodes).toFinset \ acc.toFinset := by
        rw [Finset.mem_sdiff, List.mem_toFinset, List.mem_toFinset]
        exact ⟨mem_keys nodes cur hcur, hmem⟩
      have h2 := hsub h1
      rw [Finset.mem_sdiff, List.toFinset_cons, Finset.mem_insert] at h2
      exact h2.2 (Or.inl rfl)

/-- Embeds `deleteSubtree` from the tree core.  `t` stands for the
`Date.now()` sample used for the parent's refreshed `updatedAt`. -/
def deleteSubtree (tree : ChatTree) (nodeId : String) (t : Nat) : ChatTree :=
  if nodeId = tree.rootId then tree
  else
    match getNode tree.nodes nodeId with
    | none => tree
    | some node =>
      let toDelete := collectLoop tree.nodes [nodeId] []
      let remaining := tree.nodes.filter (fun e => decide (e.1 ∉ toDelete))
      let newNodes :=
        match node.parentId with
        | none => remaining
        | some pid =>
          if pid = "" then remaining
          else
            match getNode tree.nodes pid with
            | none => remaining
            | some parent =>
              updateOrAppend remaining pid
                { parent with
                  childrenIds := parent.childrenIds.filter (fun cid => decide (cid ∉ toDelete))
                  updatedAt := t }
      let nextActive :=
        if tree.activeNodeId ∈ toDelete then node.parentId.getD tree.rootId
        else tree.activeNodeId
      { tree with activeNodeId := nextActive, nodes := newNodes }

/-- Embeds the TypeScript type `DeletedSnapshot` from `App.tsx`. -/
structure DeletedSnapshot : Type where
  rootId : String
  parentId : Option String
  parentIndex : Int
  nodes : NodeMap
deriving DecidableEq, Repr

/-- The subtree-collection worklist of `captureDeletedSubtree`: like
`collectLoop`, but an id whose node is missing is skipped entirely, and
the visited nodes are recorded (in visit order) rather than just their
ids. -/
def captureLoop (nodes : NodeMap) : List String → NodeMap → NodeMap
  | [], acc => acc
  | curId :: stack, acc =>
    match hcur : getNode nodes curId with
    | none => captureLoop nodes stack acc
    | some cur =>
      if hin : (getNode acc curId).isSome then captureLoop nodes stack acc
      else captureLoop nodes (cur.childrenIds.reverse ++ stack) (acc ++ [(curId, cur)])
termination_by stack acc => (((keysOf nodes).toFinset \ (keysOf acc).toFinset).card, stack.length)
decreasing_by
  · exact Prod.Lex.right _ (by simp only [List.length_cons]; omega)
  · exact Prod.Lex.right _ (by simp only [List.length_cons]; omega)
  · have mem_keys : ∀ (m : NodeMap) (v : ChatNode), getNode m curId = some v → curId ∈ keysOf m := by
      intro m
      induction m with
      | nil => intro v h; exact Option.noConfusion h
      | cons hd tl ih =>
        intro v h
        unfold getNode at h
        unfold keysOf
        rw [List.map_cons]
        by_cases hhd : hd.1 = curId
        · exact List.mem_cons.mpr (Or.inl hhd.symm)
        · rw [if_neg hhd] at h
          exact List.mem_cons_of_mem _ (ih v h)
    have mem_isSome : ∀ (m : NodeMap), curId ∈ keysOf m → (getNode m curId).isSome := by
      intro m
      induction m with
      | nil => intro h; exact absurd h (List.not_mem_nil _)
      | cons hd tl ih =>
        intro h
        unfold getNode
        by_cases hhd : hd.1 = curId
        · rw [if_pos hhd]; rfl
        · rw [if_neg hhd]
          apply ih
          unfold keysOf at h
          rw [List.map_cons] at h
          rcases List.mem_cons.mp h with h1 | h1
          · exact absurd h1.symm hhd
          · exact h1
    have hkeysapp : keysOf (acc ++ [(curId, cur)]) = keysOf acc ++ [curId] := by
      unfold keysOf
      rw [List.map_append]
      rfl
    apply Prod.Lex.left
    apply Finset.card_lt_card
    constructor
    · apply Finset.sdiff_subset_sdiff (le_refl _)
      rw [hkeysapp]
      intro x hx
      rw [List.mem_toFinset] at hx ⊢
      exact List.mem_append.mpr (Or.inl hx)
    · intro hsub
      have h1 : curId ∈ (keysOf nodes).toFinset \ (keysOf acc).toFinset := by
        rw [Finset.mem_sdiff, List.mem_toFinset, List.mem_toFinset]
        refine ⟨mem_keys nodes cur hcur, fun hc => ?_⟩
        exact hin (mem_isSome acc hc)
      have h2 := hsub h1
      rw [Finset.mem_sdiff, hkeysapp] at h2
      simp only [List.mem_toFinset] at h2
      exact h2.2 (List.mem_append.mpr (Or.inr (List.mem_singleton.mpr rfl)))

/-- Embeds `captureDeletedSubtree` from `App.tsx`: records the deleted
node's id, its former parent id, its index in the former parent's
`childrenIds` (JS `indexOf`, with `-1` when absent or when the parent is
missing), and a by-value copy of every node in the subtree. -/
def captureDeletedSubtree (t : ChatTree) (nodeId : String) : Option DeletedSnapshot :=
  match getNode t.nodes nodeId with
  | none => none
  | some node =>
    if nodeId = t.rootId then none
    else
      let parentIndex : Int :=
        match node.parentId with
        | none => -1
        | some pid =>
          if pid = "" then -1
          else
            match getNode t.nodes pid with
            | none => -1
            | some parent =>
              match parent.childrenIds.findIdx? (fun c => decide (c = nodeId)) with
              | some i => (i : Int)
              | none => -1
      some { rootId := nodeId, parentId := node.parentId, parentIndex := parentIndex,
             nodes := captureLoop t.nodes [nodeId] [] }

/-- Embeds `restoreDeletedSubtree` from `App.tsx`.  `time` stands for the
`Date.now()` sample used for the parent's refreshed `updatedAt`; the JS
`splice(insertAt, 0, id)` becomes `take ++ id :: drop`. -/
def restoreDeletedSubtree (t : ChatTree) (snapshot : DeletedSnapshot) (time : Nat) : ChatTree :=
  match snapshot.parentId with
  | none => t
  | some parentId =>
    if parentId = "" then t
    else
    match getNode t.nodes parentId with
    | none => t
    | some parent =>
      let nextNodes := spreadMerge t.nodes snapshot.nodes
      let nextChildren :=
        if snapshot.rootId ∈ parent.childrenIds then parent.childrenIds
        else
          let insertAt : Nat :=
            if 0 ≤ snapshot.parentIndex ∧ snapshot.parentIndex ≤ (parent.childrenIds.length : Int)
            then snapshot.parentIndex.toNat
            else parent.childrenIds.length
          parent.childrenIds.take insertAt ++ snapshot.rootId :: parent.childrenIds.drop insertAt
      { t with
        activeNodeId := snapshot.rootId
        nodes := updateOrAppend nextNodes parentId
          { parent with childrenIds := nextChildren, updatedAt := time } }

/-- A step-indexed transcription of the `deleteSubtree` collection loop:
each unit of fuel pays for one iteration of the JS `while` loop, and
`none` means the loop was still running when the fuel ran out.  Used to
state that the unbounded loop terminates. -/
def collectFuel (nodes : NodeMap) : Nat → List String → List String → Option (List String)
  | _, [], acc => some acc
  | 0, _ :: _, _ => none
  | fuel + 1, curId :: stack, acc =>
    if curId ∈ acc then collectFuel nodes fuel stack acc
    else
      match getNode nodes curId with
      | none => collectFuel nodes fuel stack (curId :: acc)
      | some cur => collectFuel nodes fuel (cur.childrenIds.reverse ++ stack) (curId :: acc)

/-- Reachability along `childrenIds` edges in a node map, from `a`:
`Reach nodes a b` holds when `b` is in the subtree rooted at `a` (the
reflexive-transitive closure of the child relation). -/
inductive Reach (nodes : NodeMap) : String → String → Prop
  | refl (a : String) : Reach nodes a a
  | step {a b c : String} {n : ChatNode} :
      Reach nodes a b → getNode nodes b = some n → c ∈ n.childrenIds → Reach nodes a c

/-- A single `childrenIds` edge in a node map. -/
def Edge (nodes : NodeMap) (b c : String) : Prop :=
  ∃ n, getNode nodes b = some n ∧ c ∈ n.childrenIds

/-- Acyclicity of the child graph: no nonempty path returns to its start. -/
def Acyclic (nodes : NodeMap) : Prop :=
  ∀ a b, Reach nodes a b → Edge nodes b a → False

/-- The structural invariants of the data model, as listed in the spec:
root existence and uniqueness, child/parent and parent/child consistency,
spanning of all entries from the root, acyclicity, and validity of the
active node. -/
def InvariantSpec (T : ChatTree) : Prop :=
  (∃ r, getNode T.nodes T.rootId = some r ∧ r.parentId = none) ∧
  (∀ k n, getNode T.nodes k = some n → n.parentId = none → k = T.rootId) ∧
  (∀ k n, getNode T.nodes k = some n →
    ∀ c ∈ n.childrenIds, ∃ cn, getNode T.nodes c = some cn ∧ cn.parentId = some k) ∧
  (∀ k n, getNode T.nodes k = some n →
    ∀ p, n.parentId = some p → ∃ pn, getNode T.nodes p = some pn ∧ k ∈ pn.childrenIds) ∧
  (∀ k, (getNode T.nodes k).isSome → Reach T.nodes T.rootId k) ∧
  Acyclic T.nodes ∧
  (getNode T.nodes T.activeNodeId).isSome

/-- Each node is owned by exactly one entry of its parent's
`childrenIds`: the children lists carry no duplicates. -/
def ChildrenNodup (T : ChatTree) : Prop :=
  ∀ k n, getNode T.nodes k = some n → n.childrenIds.Nodup

/-- The structural invariants together with per-list uniqueness of
children entries (the ownership discipline of the data model). -/
def Invariants (T : ChatTree) : Prop :=
  InvariantSpec T ∧ ChildrenNodup T

/-- The trees reachable from `createEmptyTree` by finite compositions of
the core operations, with well-formedness of generated node ids taken as
a hypothesis: a generated id is fresh and nonempty (`crypto.randomUUID()`
always returns a 36-character string, never the empty string, which the
JS truthiness guards in the source treat as absent). -/
inductive Reachable : ChatTree → Prop
  | create (rootId : String) (t : Nat) :
      rootId ≠ "" → Reachable (createEmptyTree rootId t)
  | add {T : ChatTree} (parentId childId : String) (t : Nat) :
      Reachable T → getNode T.nodes childId = none → childId ≠ "" →
      Reachable (addChild T parentId childId t)
  | toggle {T : ChatTree} (nodeId : String) (t : Nat) :
      Reachable T → Reachable (toggleCollapse T nodeId t)
  | setActive {T : ChatTree} (nodeId : String) :
      Reachable T → Reachable (setActiveNode T nodeId)
  | append {T : ChatTree} (nodeId : String) (role : Role) (content msgId : String) (mt t : Nat) :
      Reachable T → Reachable (appendMessage T nodeId role content msgId mt t)
  | rename {T : ChatTree} (nodeId title : String) (t : Nat) :
      Reachable T → Reachable (renameNode T nodeId title t)
  | delete {T : ChatTree} (nodeId : String) (t : Nat) :
      Reachable T → Reachable (deleteSubtree T nodeId t)

/-- The specified behavior of `deleteSubtree T nodeId t` on a tree
satisfying the invariants, for a non-root node `nodeId` with parent `p`
(whose record is `pn`): exactly the ids reachable from `nodeId` are
removed from `nodes`; the parent's `childrenIds` lose `nodeId` and its
`updatedAt` becomes `t`; the active node is repaired to the former parent
when it was deleted and kept otherwise, and always resolves. -/
def DeleteSpec (T : ChatTree) (nodeId p : String) (pn : ChatNode) (t : Nat) : Prop :=
  (∀ x, Reach T.nodes nodeId x → getNode (deleteSubtree T nodeId t).nodes x = none) ∧
  (∀ x, ¬ Reach T.nodes nodeId x → x ≠ p →
    getNode (deleteSubtree T nodeId t).nodes x = getNode T.nodes x) ∧
  getNode (deleteSubtree T nodeId t).nodes p =
    some { pn with
           childrenIds := pn.childrenIds.filter (fun c => decide (c ≠ nodeId))
           updatedAt := t } ∧
  (Reach T.nodes nodeId T.activeNodeId → (deleteSubtree T nodeId t).activeNodeId = p) ∧
  (¬ Reach T.nodes nodeId T.activeNodeId →
    (deleteSubtree T nodeId t).activeNodeId = T.activeNodeId) ∧
  (getNode (deleteSubtree T nodeId t).nodes (deleteSubtree T nodeId t).activeNodeId).isSome = true ∧
  (deleteSubtree T nodeId t).rootId = T.rootId

/-- The specified round trip of capture, delete and restore for a node
`nodeId` with parent `p` (record `pn`): the snapshot records `nodeId`,
its parent and its index in the parent's `childrenIds`, and restoring it
over the deleted tree reproduces the original node map pointwise (the
parent regains its exact former `childrenIds`, with only its `updatedAt`
refreshed), with the restored subtree's root active. -/
def RestoreSpec (T : ChatTree) (nodeId p : String) (pn : ChatNode) (td tr : Nat) : Prop :=
  ∃ s, captureDeletedSubtree T nodeId = some s ∧
    s.rootId = nodeId ∧
    s.parentId = some p ∧
    (∃ i : Nat, pn.childrenIds.findIdx? (fun c => decide (c = nodeId)) = some i ∧
      s.parentIndex = (i : Int)) ∧
    (restoreDeletedSubtree (deleteSubtree T nodeId td) s tr).rootId = T.rootId ∧
    (restoreDeletedSubtree (deleteSubtree T nodeId td) s tr).activeNodeId = nodeId ∧
    getNode (restoreDeletedSubtree (deleteSubtree T nodeId td) s tr).nodes p =
      some { pn with updatedAt := tr } ∧
    (∀ x, x ≠ p →
      getNode (restoreDeletedSubtree (deleteSubtree T nodeId td) s tr).nodes x =
        getNode T.nodes x) ∧
    (∀ x, (getNode (restoreDeletedSubtree (deleteSubtree T nodeId td) s tr).nodes x).isSome
        = (getNode T.nodes x).isSome) ∧
    (∀ x nx nx2, getNode T.nodes x = some nx →
      getNode (restoreDeletedSubtree (deleteSubtree T nodeId td) s tr).nodes x = some nx2 →
      nx2.messages = nx.messages)

/-! ### Basic lemmas about the node-map operations -/

theorem getNode_cons (e : String × ChatNode) (rest : NodeMap) (k : String) :
    getNode (e :: rest) k = if e.1 = k then some e.2 else getNode rest k := rfl

theorem getNode_eq_none_iff (m : NodeMap) (k : String) :
    getNode m k = none ↔ k ∉ keysOf m := by
  induction m with
  | nil => simp [getNode, keysOf]
  | cons hd tl ih =>
    unfold getNode keysOf
    rw [List.map_cons]
    by_cases hhd : hd.1 = k
    · rw [if_pos hhd]
      simp [hhd]
    · rw [if_neg hhd]
      unfold keysOf at ih
      rw [ih]
      constructor
      · intro h hc
        rcases List.mem_cons.mp hc with h1 | h1
        · exact hhd h1.symm
        · exact h h1
      · intro h hc
        exact h (List.mem_cons_of_mem _ hc)

theorem getNode_isSome_iff (m : NodeMap) (k : String) :
    (getNode m k).isSome = true ↔ k ∈ keysOf m := by
  rw [Option.isSome_iff_ne_none]
  constructor
  · intro h
    by_contra hc
    exact h ((getNode_eq_none_iff m k).mpr hc)
  · intro h hc
    exact ((getNode_eq_none_iff m k).mp hc) h

theorem getNode_append_of_some (m1 m2 : NodeMap) (k : String) (v : ChatNode)
    (h : getNode m1 k = some v) : getNode (m1 ++ m2) k = some v := by
  induction m1 with
  | nil => exact Option.noConfusion h
  | cons hd tl ih =>
    rw [getNode_cons] at h
    rw [List.cons_append, getNode_cons]
    by_cases hhd : hd.1 = k
    · rw [if_pos hhd] at h ⊢; exact h
    · rw [if_neg hhd] at h ⊢; exact ih h

theorem getNode_append_of_none (m1 m2 : NodeMap) (k : String)
    (h : getNode m1 k = none) : getNode (m1 ++ m2) k = getNode m2 k := by
  induction m1 with
  | nil => rfl
  | cons hd tl ih =>
    rw [getNode_cons] at h
    rw [List.cons_append, getNode_cons]
    by_cases hhd : hd.1 = k
    · rw [if_pos hhd] at h; exact Option.noConfusion h
    · rw [if_neg hhd] at h ⊢; exact ih h

theorem getNode_mapReplace_self (m : NodeMap) (k : String) (v : ChatNode)
    (h : (getNode m k).isSome) :
    getNode (m.map (fun e => if e.1 = k then (k, v) else e)) k = some v := by
  induction m with
  | nil => exact Bool.noConfusion h
  | cons hd tl ih =>
    rw [List.map_cons]
    by_cases hhd : hd.1 = k
    · unfold getNode
      rw [if_pos hhd, if_pos rfl]
    · unfold getNode at h ⊢
      rw [if_neg hhd] at h
      rw [if_neg hhd, if_neg hhd]
      exact ih h

theorem getNode_mapReplace_ne (m : NodeMap) (k : String) (v : ChatNode) (k2 : String)
    (h : k2 ≠ k) :
    getNode (m.map (fun e => if e.1 = k then (k, v) else e)) k2 = getNode m k2 := by
  induction m with
  | nil => rfl
  | cons hd tl ih =>
    rw [List.map_cons]
    by_cases hhd : hd.1 = k
    · unfold getNode
      rw [if_pos hhd, if_neg (fun hc => h hc.symm), if_neg (fun hc => h (hhd ▸ hc).symm)]
      exact ih
    · unfold getNode
      rw [if_neg hhd]
      by_cases hh2 : hd.1 = k2
      · rw [if_pos hh2, if_pos hh2]
      · rw [if_neg hh2, if_neg hh2]
        exact ih

theorem getNode_updateOrAppend_self (m : NodeMap) (k : String) (v : ChatNode) :
    getNode (updateOrAppend m k v) k = some v := by
  unfold updateOrAppend
  by_cases h : (getNode m k).isSome
  · rw [if_pos h]
    exact getNode_mapReplace_self m k v h
  · rw [if_neg h]
    have hnone : getNode m k = none := by
      cases hx : getNode m k
      · rfl
      · rw [hx] at h; exact absurd rfl h
    rw [getNode_append_of_none _ _ _ hnone]
    unfold getNode
    rw [if_pos rfl]

theorem getNode_updateOrAppend_ne (m : NodeMap) (k : String) (v : ChatNode) (k2 : String)
    (h : k2 ≠ k) : getNode (updateOrAppend m k v) k2 = getNode m k2 := by
  unfold updateOrAppend
  by_cases hs : (getNode m k).isSome
  · rw [if_pos hs]
    exact getNode_mapReplace_ne m k v k2 h
  · rw [if_neg hs]
    by_cases h2 : getNode m k2 = none
    · rw [getNode_append_of_none _ _ _ h2, h2]
      unfold getNode
      rw [if_neg (fun hc => h hc.symm)]
      rfl
    · cases hx : getNode m k2 with
      | none => exact absurd hx h2
      | some v2 => exact getNode_append_of_some _ _ _ _ hx

theorem getNode_filterKeys (m : NodeMap) (p : String → Bool) (k : String) :
    getNode (m.filter (fun e => p e.1)) k = if p k then getNode m k else none := by
  induction m with
  | nil => simp [getNode]
  | cons hd tl ih =>
    rw [List.filter_cons]
    by_cases hp : p hd.1
    · rw [if_pos hp, getNode_cons, getNode_cons]
      by_cases hhd : hd.1 = k
      · rw [if_pos hhd, if_pos (hhd ▸ hp), if_pos hhd]
      · rw [if_neg hhd, if_neg hhd]
        exact ih
    · rw [if_neg hp, ih, getNode_cons]
      by_cases hhd : hd.1 = k
      · subst hhd
        rw [if_neg hp, if_neg hp]
      · rw [if_neg hhd]

theorem keysOf_updateOrAppend_of_isSome (m : NodeMap) (k : String) (v : ChatNode)
    (h : (getNode m k).isSome) : keysOf (updateOrAppend m k v) = keysOf m := by
  unfold updateOrAppend
  rw [if_pos h]
  unfold keysOf
  rw [List.map_map]
  apply List.map_congr_left
  intro e _
  by_cases hhd : e.1 = k
  · simp [hhd]
  · simp [hhd]

theorem keysOf_updateOrAppend_of_none (m : NodeMap) (k : String) (v : ChatNode)
    (h : getNode m k = none) : keysOf (updateOrAppend m k v) = keysOf m ++ [k] := by
  unfold updateOrAppend
  rw [if_neg (by rw [h]; intro hc; exact Bool.noConfusion hc)]
  unfold keysOf
  rw [List.map_append]
  rfl

theorem keysOf_filterKeys (m : NodeMap) (p : String → Bool) :
    keysOf (m.filter (fun e => p e.1)) = (keysOf m).filter p := by
  induction m with
  | nil => rfl
  | cons hd tl ih =>
    rw [List.filter_cons]
    unfold keysOf
    rw [List.map_cons, List.filter_cons]
    by_cases hp : p hd.1
    · rw [if_pos hp, if_pos hp]
      unfold keysOf at ih
      rw [List.map_cons, ih]
    · rw [if_neg hp, if_neg hp]
      exact ih

theorem getNode_mem (m : NodeMap) (k : String) (v : ChatNode)
    (h : getNode m k = some v) : (k, v) ∈ m := by
  induction m with
  | nil => exact Option.noConfusion h
  | cons hd tl ih =>
    unfold getNode at h
    by_cases hhd : hd.1 = k
    · rw [if_pos hhd] at h
      injection h with h
      have he : hd = (k, v) := Prod.ext hhd h
      rw [← he]
      exact List.mem_cons_self _ _
    · rw [if_neg hhd] at h
      exact List.mem_cons_of_mem _ (ih h)

/-! ### Lemmas about the deletion worklist `collectLoop` -/

theorem collectLoop_nil (nodes : NodeMap) (acc : List String) :
    collectLoop nodes [] acc = acc := by
  rw [collectLoop.eq_def]

theorem collectLoop_cons_mem (nodes : NodeMap) (curId : String) (stack acc : List String)
    (h : curId ∈ acc) : collectLoop nodes (curId :: stack) acc = collectLoop nodes stack acc := by
  rw [collectLoop.eq_2, dif_pos h]

theorem collectLoop_cons_none (nodes : NodeMap) (curId : String) (stack acc : List String)
    (h : curId ∉ acc) (h2 : getNode nodes curId = none) :
    collectLoop nodes (curId :: stack) acc = collectLoop nodes stack (curId :: acc) := by
  rw [collectLoop.eq_2, dif_neg h]
  split
  · rfl
  · rename_i cur heq
    rw [h2] at heq
    exact Option.noConfusion heq

theorem collectLoop_cons_some (nodes : NodeMap) (curId : String) (stack acc : List String)
    (cur : ChatNode) (h : curId ∉ acc) (h2 : getNode nodes curId = some cur) :
    collectLoop nodes (curId :: stack) acc
      = collectLoop nodes (cur.childrenIds.reverse ++ stack) (curId :: acc) := by
  rw [collectLoop.eq_2, dif_neg h]
  split
  · rename_i heq
    rw [h2] at heq
    exact Option.noConfusion heq
  · rename_i cur2 heq
    rw [h2] at heq
    injection heq with heq2
    rw [heq2]

theorem collectLoop_acc_subset (nodes : NodeMap) :
    ∀ stack acc, ∀ x ∈ acc, x ∈ collectLoop nodes stack acc := by
  intro stack acc
  induction stack, acc using collectLoop.induct nodes with
  | case1 acc =>
    intro x hx
    rw [collectLoop_nil]
    exact hx
  | case2 curId stack acc hmem ih =>
    intro x hx
    rw [collectLoop_cons_mem nodes curId stack acc hmem]
    exact ih x hx
  | case3 curId stack acc hmem hnone ih =>
    intro x hx
    rw [collectLoop_cons_none nodes curId stack acc hmem hnone]
    exact ih x (List.mem_cons_of_mem _ hx)
  | case4 curId stack acc hmem cur hsome ih =>
    intro x hx
    rw [collectLoop_cons_some nodes curId stack acc cur hmem hsome]
    exact ih x (List.mem_cons_of_mem _ hx)

theorem collectLoop_sound (nodes : NodeMap) (start : String) :
    ∀ stack acc, (∀ s ∈ stack, Reach nodes start s) → (∀ a ∈ acc, Reach nodes start a) →
    ∀ x ∈ collectLoop nodes stack acc, Reach nodes start x := by
  intro stack acc
  induction stack, acc using collectLoop.induct nodes with
  | case1 acc =>
    intro _ hacc x hx
    rw [collectLoop_nil] at hx
    exact hacc x hx
  | case2 curId stack acc hmem ih =>
    intro hstack hacc x hx
    rw [collectLoop_cons_mem nodes curId stack acc hmem] at hx
    exact ih (fun s hs => hstack s (List.mem_cons_of_mem _ hs)) hacc x hx
  | case3 curId stack acc hmem hnone ih =>
    intro hstack hacc x hx
    rw [collectLoop_cons_none nodes curId stack acc hmem hnone] at hx
    refine ih (fun s hs => hstack s (List.mem_cons_of_mem _ hs)) ?_ x hx
    intro a ha
    rcases List.mem_cons.mp ha with h1 | h1
    · subst h1
      exact hstack a (List.mem_cons_self _ _)
    · exact hacc a h1
  | case4 curId stack acc hmem cur hsome ih =>
    intro hstack hacc x hx
    rw [collectLoop_cons_some nodes curId stack acc cur hmem hsome] at hx
    have hcurReach : Reach nodes start curId := hstack curId (List.mem_cons_self _ _)
    refine ih ?_ ?_ x hx
    · intro s hs
      rcases List.mem_append.mp hs with h1 | h1
      · exact Reach.step hcurReach hsome (List.mem_reverse.mp h1)
      · exact hstack s (List.mem_cons_of_mem _ h1)
    · intro a ha
      rcases List.mem_cons.mp ha with h1 | h1
      · subst h1
        exact hcurReach
      · exact hacc a h1

theorem collectLoop_closed (nodes : NodeMap) :
    ∀ stack acc,
    (∀ a ∈ acc, ∀ n, getNode nodes a = some n →
      ∀ c ∈ n.childrenIds, c ∈ acc ∨ c ∈ stack) →
    ∀ x ∈ collectLoop nodes stack acc, ∀ n, getNode nodes x = some n →
      ∀ c ∈ n.childrenIds, c ∈ collectLoop nodes stack acc := by
  intro stack acc
  induction stack, acc using collectLoop.induct nodes with
  | case1 acc =>
    intro hinv x hx n hn c hc
    rw [collectLoop_nil] at hx ⊢
    rcases hinv x hx n hn c hc with h1 | h1
    · exact h1
    · exact absurd h1 (List.not_mem_nil c)
  | case2 curId stack acc hmem ih =>
    intro hinv
    rw [collectLoop_cons_mem nodes curId stack acc hmem]
    apply ih
    intro a ha n hn c hc
    rcases hinv a ha n hn c hc with h1 | h1
    · exact Or.inl h1
    · rcases List.mem_cons.mp h1 with h2 | h2
      · subst h2
        exact Or.inl hmem
      · exact Or.inr h2
  | case3 curId stack acc hmem hnone ih =>
    intro hinv
    rw [collectLoop_cons_none nodes curId stack acc hmem hnone]
    apply ih
    intro a ha n hn c hc
    rcases List.mem_cons.mp ha with h2 | h2
    · subst h2
      rw [hnone] at hn
      exact Option.noConfusion hn
    · rcases hinv a h2 n hn c hc with h1 | h1
      · exact Or.inl (List.mem_cons_of_mem _ h1)
      · rcases List.mem_cons.mp h1 with h3 | h3
        · subst h3
          exact Or.inl (List.mem_cons_self _ _)
        · exact Or.inr h3
  | case4 curId stack acc hmem cur hsome ih =>
    intro hinv
    rw [collectLoop_cons_some nodes curId stack acc cur hmem hsome]
    apply ih
    intro a ha n hn c hc
    rcases List.mem_cons.mp ha with h2 | h2
    · subst h2
      rw [hsome] at hn
      injection hn with hn2
      subst hn2
      exact Or.inr (List.mem_append.mpr (Or.inl (List.mem_reverse.mpr hc)))
    · rcases hinv a h2 n hn c hc with h1 | h1
      · exact Or.inl (List.mem_cons_of_mem _ h1)
      · rcases List.mem_cons.mp h1 with h3 | h3
        · subst h3
          exact Or.inl (List.mem_cons_self _ _)
        · exact Or.inr (List.mem_append.mpr (Or.inr h3))

theorem collectLoop_start_mem (nodes : NodeMap) (start : String) :
    start ∈ collectLoop nodes [start] [] := by
  cases hcur : getNode nodes start with
  | none =>
    rw [collectLoop_cons_none nodes start [] [] (List.not_mem_nil _) hcur]
    exact collectLoop_acc_subset nodes [] [start] start (List.mem_cons_self _ _)
  | some cur =>
    rw [collectLoop_cons_some nodes start [] [] cur (List.not_mem_nil _) hcur]
    exact collectLoop_acc_subset nodes _ [start] start (List.mem_cons_self _ _)

theorem collectLoop_mem_iff_reach (nodes : NodeMap) (start : String) (x : String) :
    x ∈ collectLoop nodes [start] [] ↔ Reach nodes start x := by
  constructor
  · intro hx
    refine collectLoop_sound nodes start [start] [] ?_ ?_ x hx
    · intro s hs
      rcases List.mem_cons.mp hs with h1 | h1
      · subst h1; exact Reach.refl s
      · exact absurd h1 (List.not_mem_nil s)
    · intro a ha
      exact absurd ha (List.not_mem_nil a)
  · intro hreach
    induction hreach with
    | refl => exact collectLoop_start_mem nodes start
    | step hab hn hc ih =>
      exact collectLoop_closed nodes [start] []
        (fun a ha => absurd ha (List.not_mem_nil a)) _ ih _ hn _ hc

theorem collectLoop_nodup (nodes : NodeMap) :
    ∀ stack acc, acc.Nodup → (collectLoop nodes stack acc).Nodup := by
  intro stack acc
  induction stack, acc using collectLoop.induct nodes with
  | case1 acc =>
    intro h
    rw [collectLoop_nil]
    exact h
  | case2 curId stack acc hmem ih =>
    intro h
    rw [collectLoop_cons_mem nodes curId stack acc hmem]
    exact ih h
  | case3 curId stack acc hmem hnone ih =>
    intro h
    rw [collectLoop_cons_none nodes curId stack acc hmem hnone]
    exact ih (List.Nodup.cons hmem h)
  | case4 curId stack acc hmem cur hsome ih =>
    intro h
    rw [collectLoop_cons_some nodes curId stack acc cur hmem hsome]
    exact ih (List.Nodup.cons hmem h)

/-! ### Result-shape lemmas for the core operations -/

theorem addChild_of_some (T : ChatTree) (parentId childId : String) (t : Nat)
    (parent : ChatNode) (h : getNode T.nodes parentId = some parent) :
    addChild T parentId childId t =
      { T with
        activeNodeId := childId
        nodes :=
          updateOrAppend
            (updateOrAppend T.nodes parentId
              { parent with childrenIds := parent.childrenIds ++ [childId], updatedAt := t })
            childId
            { id := childId, title := "New thread", parentId := some parentId,
              childrenIds := [], isCollapsed := false, messages := [],
              createdAt := t, updatedAt := t } } := by
  unfold addChild
  rw [h]

theorem toggleCollapse_of_some (T : ChatTree) (nodeId : String) (t : Nat)
    (node : ChatNode) (h : getNode T.nodes nodeId = some node) :
    toggleCollapse T nodeId t =
      { T with
        nodes := updateOrAppend T.nodes nodeId
          { node with isCollapsed := !node.isCollapsed, updatedAt := t } } := by
  unfold toggleCollapse
  rw [h]

theorem setActiveNode_of_isSome (T : ChatTree) (nodeId : String)
    (h : (getNode T.nodes nodeId).isSome) :
    setActiveNode T nodeId = { T with activeNodeId := nodeId } := by
  unfold setActiveNode
  rw [if_pos h]

theorem appendMessage_of_some (T : ChatTree) (nodeId : String) (role : Role)
    (content msgId : String) (mt t : Nat) (node : ChatNode)
    (h : getNode T.nodes nodeId = some node) :
    appendMessage T nodeId role content msgId mt t =
      { T with
        nodes := updateOrAppend T.nodes nodeId
          { node with
            messages := node.messages ++
              [{ id := msgId, role := role, content := content, createdAt := mt }]
            updatedAt := t
            title :=
              if node.title = "New thread" ∧ role = Role.user then sliceTo content 30
              else node.title } } := by
  unfold appendMessage
  rw [h]

theorem renameNode_of_some (T : ChatTree) (nodeId title : String) (t : Nat)
    (node : ChatNode) (h : getNode T.nodes nodeId = some node) :
    renameNode T nodeId title t =
      { T with
        nodes := updateOrAppend T.nodes nodeId
          { node with
            title := if jsTrim title = "" then "Untitled" else jsTrim title
            updatedAt := t } } := by
  unfold renameNode
  rw [h]

theorem appendMessage_getNode_self (T : ChatTree) (nodeId : String) (role : Role)
    (content msgId : String) (mt t : Nat) (node : ChatNode)
    (h : getNode T.nodes nodeId = some node) :
    getNode (appendMessage T nodeId role content msgId mt t).nodes nodeId =
      some { node with
             messages := node.messages ++
               [{ id := msgId, role := role, content := content, createdAt := mt }]
             updatedAt := t
             title :=
               if node.title = "New thread" ∧ role = Role.user then sliceTo content 30
               else node.title } := by
  rw [appendMessage_of_some T nodeId role content msgId mt t node h]
  exact getNode_updateOrAppend_self _ _ _

/-! ### Claim C5: the root is never deleted -/

/-- C5: for every tree `T` and timestamp, `deleteSubtree T T.rootId t`
returns `T` itself, regardless of the rest of the tree's contents. -/
theorem c5_deleteSubtree_root_noop (T : ChatTree) (t : Nat) :
    deleteSubtree T T.rootId t = T := by
  unfold deleteSubtree
  rw [if_pos rfl]

/-! ### Claim C4: operations with a nonexistent id are no-ops -/

/-- C4: every core operation invoked with an id that does not exist in
`T.nodes` returns `T` itself unchanged: `addChild` with it as the parent,
`toggleCollapse`, `setActiveNode`, `appendMessage` with any role and
content, `renameNode` with any title, and `deleteSubtree`. -/
theorem c4_invalid_id_noop (T : ChatTree) (badId childId msgId : String) (role : Role)
    (content title : String) (mt t : Nat) (h : getNode T.nodes badId = none) :
    addChild T badId childId t = T ∧
    toggleCollapse T badId t = T ∧
    setActiveNode T badId = T ∧
    appendMessage T badId role content msgId mt t = T ∧
    renameNode T badId title t = T ∧
    deleteSubtree T badId t = T := by
  have hns : ¬((getNode T.nodes badId).isSome = true) := by
    rw [h]
    intro hc
    exact Bool.noConfusion hc
  refine ⟨?_, ?_, ?_, ?_, ?_, ?_⟩
  · unfold addChild; rw [h]
  · unfold toggleCollapse; rw [h]
  · unfold setActiveNode; rw [if_neg hns]
  · unfold appendMessage; rw [h]
  · unfold renameNode; rw [h]
  · unfold deleteSubtree
    by_cases hr : badId = T.rootId
    · rw [if_pos hr]
    · rw [if_neg hr, h]

/-- Witness for C4 at a concrete tree and id. -/
theorem c4_witness :
    getNode (createEmptyTree "r" 0).nodes "x" = none ∧
    (addChild (createEmptyTree "r" 0) "x" "c" 1 = createEmptyTree "r" 0 ∧
     toggleCollapse (createEmptyTree "r" 0) "x" 1 = createEmptyTree "r" 0 ∧
     setActiveNode (createEmptyTree "r" 0) "x" = createEmptyTree "r" 0 ∧
     appendMessage (createEmptyTree "r" 0) "x" Role.user "hello" "m" 1 2 = createEmptyTree "r" 0 ∧
     renameNode (createEmptyTree "r" 0) "x" "title" 1 = createEmptyTree "r" 0 ∧
     deleteSubtree (createEmptyTree "r" 0) "x" 1 = createEmptyTree "r" 0) :=
  ⟨rfl, c4_invalid_id_noop (createEmptyTree "r" 0) "x" "c" "m" Role.user "hello" "title" 1 1 rfl⟩

/-! ### Claim C8: the shape of `createEmptyTree` -/

/-- C8 counterexample: the claim asserts the root of `createEmptyTree` has
an empty title, but at the concrete input the stored title is `"Root"`. -/
theorem c8_counterexample :
    Option.map ChatNode.title (getNode (createEmptyTree "r" 0).nodes "r") = some "Root" ∧
    ("Root" : String) ≠ "" :=
  ⟨rfl, by decide⟩

/-- C8 (amended): `createEmptyTree` produces a tree with exactly one node:
a root with title `"Root"` (not the empty string), empty messages,
`isCollapsed = false`, `parentId = none`, empty `childrenIds`, and
`activeNodeId` equal to `rootId`. -/
theorem c8_createEmptyTree_shape (rootId : String) (t : Nat) :
    (createEmptyTree rootId t).rootId = rootId ∧
    (createEmptyTree rootId t).activeNodeId = rootId ∧
    (createEmptyTree rootId t).nodes =
      [(rootId, { id := rootId, title := "Root", parentId := none, childrenIds := [],
                  isCollapsed := false, messages := [], createdAt := t, updatedAt := t })] :=
  ⟨rfl, rfl, rfl⟩

/-! ### Claim C9: renameNode trims and falls back to "Untitled" -/

/-- C9: for every tree, existing node and title string, `renameNode`
stores the trimmed title with the node's `updatedAt` refreshed, and when
the trimmed result is empty it stores the fallback `"Untitled"` instead. -/
theorem c9_renameNode_trim_fallback (T : ChatTree) (nodeId title : String) (t : Nat)
    (node : ChatNode) (h : getNode T.nodes nodeId = some node) :
    getNode (renameNode T nodeId title t).nodes nodeId =
      some { node with
             title := if jsTrim title = "" then "Untitled" else jsTrim title
             updatedAt := t } := by
  rw [renameNode_of_some T nodeId title t node h]
  exact getNode_updateOrAppend_self _ _ _

/-- Witness for C9 at a concrete tree, with the whitespace-only title
`"   "` producing `"Untitled"`. -/
theorem c9_witness :
    getNode (renameNode (createEmptyTree "r" 0) "r" "   " 5).nodes "r" =
      some { id := "r", title := "Untitled", parentId := none, childrenIds := [],
             isCollapsed := false, messages := [], createdAt := 0, updatedAt := 5 } := by
  have h := c9_renameNode_trim_fallback (createEmptyTree "r" 0) "r" "   " 5
    { id := "r", title := "Root", parentId := none, childrenIds := [],
      isCollapsed := false, messages := [], createdAt := 0, updatedAt := 0 } rfl
  have htrim : jsTrim "   " = "" := by decide
  rw [h, if_pos htrim]

/-! ### Claim C10: the root's title never triggers inference -/

/-- C10: title inference in `appendMessage` fires only on the literal
placeholder `"New thread"`; the root created by `createEmptyTree` is
titled `"Root"`, so appending a user message to a fresh root never changes
the root's title, for every id, content and timestamps. -/
theorem c10_root_title_not_rederived (rootId content msgId : String) (t mt t2 : Nat) :
    Option.map ChatNode.title
      (getNode (appendMessage (createEmptyTree rootId t) rootId Role.user content msgId mt t2).nodes
        rootId) = some "Root" := by
  have hget : getNode (createEmptyTree rootId t).nodes rootId =
      some { id := rootId, title := "Root", parentId := none, childrenIds := [],
             isCollapsed := false, messages := [], createdAt := t, updatedAt := t } := by
    unfold createEmptyTree
    rw [getNode_cons]
    exact if_pos rfl
  rw [appendMessage_getNode_self _ _ _ _ _ _ _ _ hget]
  have hcond : ¬(("Root" : String) = "New thread" ∧ Role.user = Role.user) := by decide
  simp [hcond]

/-! ### Claim C7: one-time title inference in appendMessage -/

/-- C7 counterexample: when the first user message is exactly the
placeholder text `"New thread"`, the derived title equals the placeholder
again, and a second user append does re-derive the title ( `"hello"`
instead of the previous `"New thread"` ), so the claim's universally
stated consequence fails at this concrete input. -/
theorem c7_counterexample :
    Option.map ChatNode.title
      (getNode (appendMessage (addChild (createEmptyTree "r" 0) "r" "c" 1)
        "c" Role.user "New thread" "m1" 2 2).nodes "c") = some "New thread" ∧
    Option.map ChatNode.title
      (getNode (appendMessage (appendMessage (addChild (createEmptyTree "r" 0) "r" "c" 1)
        "c" Role.user "New thread" "m1" 2 2) "c" Role.user "hello" "m2" 3 3).nodes "c")
      = some "hello" ∧
    ("hello" : String) ≠ "New thread" := by
  refine ⟨by decide, by decide, by decide⟩

/-- C7 (amended): for every tree and existing node, the appended node's
title becomes the first 30 characters of `content` exactly when the title
still equals the placeholder `"New thread"` and the role is `user`, and is
unchanged otherwise; consequently a second user append does not re-derive
the title provided the title derived from the first message is not itself
the placeholder `"New thread"`. -/
theorem c7_title_inference_once (T : ChatTree) (nodeId : String)
    (content content2 msgId msgId2 : String) (mt t mt2 t2 : Nat) (node : ChatNode)
    (h : getNode T.nodes nodeId = some node) :
    (∀ role : Role,
      Option.map ChatNode.title
        (getNode (appendMessage T nodeId role content msgId mt t).nodes nodeId) =
        some (if node.title = "New thread" ∧ role = Role.user then sliceTo content 30
              else node.title)) ∧
    (node.title = "New thread" → sliceTo content 30 ≠ "New thread" →
      Option.map ChatNode.title
        (getNode (appendMessage (appendMessage T nodeId Role.user content msgId mt t)
          nodeId Role.user content2 msgId2 mt2 t2).nodes nodeId) =
        some (sliceTo content 30)) := by
  constructor
  · intro role
    rw [appendMessage_getNode_self T nodeId role content msgId mt t node h]
    rfl
  · intro hplaceholder hne
    have h1 := appendMessage_getNode_self T nodeId Role.user content msgId mt t node h
    rw [if_pos ⟨hplaceholder, rfl⟩] at h1
    rw [appendMessage_getNode_self _ nodeId Role.user content2 msgId2 mt2 t2 _ h1]
    rw [Option.map_some']
    congr 1
    exact if_neg (fun hc => hne hc.1)

/-- Witness for C7 at a concrete tree: a fresh child still carrying the
placeholder title. -/
theorem c7_witness :
    (∀ role : Role,
      Option.map ChatNode.title
        (getNode (appendMessage (addChild (createEmptyTree "r" 0) "r" "c" 1)
          "c" role "greetings" "m1" 2 2).nodes "c") =
        some (if ("New thread" : String) = "New thread" ∧ role = Role.user
              then sliceTo "greetings" 30 else "New thread")) ∧
    (("New thread" : String) = "New thread" → sliceTo "greetings" 30 ≠ "New thread" →
      Option.map ChatNode.title
        (getNode (appendMessage (appendMessage (addChild (createEmptyTree "r" 0) "r" "c" 1)
          "c" Role.user "greetings" "m1" 2 2) "c" Role.user "more words" "m2" 3 3).nodes "c") =
        some (sliceTo "greetings" 30)) :=
  c7_title_inference_once (addChild (createEmptyTree "r" 0) "r" "c" 1) "c"
    "greetings" "more words" "m1" "m2" 2 2 3 3
    { id := "c", title := "New thread", parentId := some "r", childrenIds := [],
      isCollapsed := false, messages := [], createdAt := 1, updatedAt := 1 }
    (by decide)

/-! ### Claim C6: the collection worklist terminates and visits ids once -/

/-- C6: on every type-valid node map, even with repeated or cyclic
`childrenIds` references, the collection loop of `deleteSubtree` finishes:
some finite amount of fuel makes its step-indexed transcription
`collectFuel` reach the final state `collectLoop` computes, and the
collected list holds each id at most once. -/
theorem c6_collection_terminates (nodes : NodeMap) (start : String) :
    (∃ fuel, collectFuel nodes fuel [start] [] = some (collectLoop nodes [start] [])) ∧
    (collectLoop nodes [start] []).Nodup := by
  constructor
  · have main : ∀ stack acc, ∃ fuel,
        collectFuel nodes fuel stack acc = some (collectLoop nodes stack acc) := by
      intro stack acc
      induction stack, acc using collectLoop.induct nodes with
      | case1 acc =>
        refine ⟨0, ?_⟩
        rw [collectLoop_nil]
        rfl
      | case2 curId stack acc hmem ih =>
        obtain ⟨f, hf⟩ := ih
        refine ⟨f + 1, ?_⟩
        rw [collectLoop_cons_mem nodes curId stack acc hmem]
        have hstep : collectFuel nodes (f + 1) (curId :: stack) acc
            = collectFuel nodes f stack acc := by
          simp [collectFuel, hmem]
        rw [hstep]
        exact hf
      | case3 curId stack acc hmem hnone ih =>
        obtain ⟨f, hf⟩ := ih
        refine ⟨f + 1, ?_⟩
        rw [collectLoop_cons_none nodes curId stack acc hmem hnone]
        have hstep : collectFuel nodes (f + 1) (curId :: stack) acc
            = collectFuel nodes f stack (curId :: acc) := by
          simp [collectFuel, hmem, hnone]
        rw [hstep]
        exact hf
      | case4 curId stack acc hmem cur hsome ih =>
        obtain ⟨f, hf⟩ := ih
        refine ⟨f + 1, ?_⟩
        rw [collectLoop_cons_some nodes curId stack acc cur hmem hsome]
        have hstep : collectFuel nodes (f + 1) (curId :: stack) acc
            = collectFuel nodes f (cur.childrenIds.reverse ++ stack) (curId :: acc) := by
          simp [collectFuel, hmem, hsome]
        rw [hstep]
        exact hf
    exact main [start] []
  · exact collectLoop_nodup nodes [start] [] List.nodup_nil

/-! ### The internal well-formedness predicate and its consequences -/

/-- An inductive-step well-formedness predicate for trees: the structural
invariants together with map-level well-formedness (unique keys, stored
ids matching keys, duplicate-free children lists) and a depth certificate
that witnesses acyclicity. -/
structure WF (T : ChatTree) : Prop where
  keysNodup : (keysOf T.nodes).Nodup
  idOk : ∀ k n, getNode T.nodes k = some n → n.id = k
  rootSome : ∃ r, getNode T.nodes T.rootId = some r ∧ r.parentId = none
  rootOnly : ∀ k n, getNode T.nodes k = some n → n.parentId = none → k = T.rootId
  childParent : ∀ k n, getNode T.nodes k = some n →
    ∀ c ∈ n.childrenIds, ∃ cn, getNode T.nodes c = some cn ∧ cn.parentId = some k
  parentChild : ∀ k n, getNode T.nodes k = some n →
    ∀ p, n.parentId = some p → ∃ pn, getNode T.nodes p = some pn ∧ k ∈ pn.childrenIds
  childNodup : ∀ k n, getNode T.nodes k = some n → n.childrenIds.Nodup
  activeOk : (getNode T.nodes T.activeNodeId).isSome
  depthCert : ∃ depth : String → Nat, ∀ k n, getNode T.nodes k = some n →
    ∀ p, n.parentId = some p → depth k = depth p + 1
  keysNonempty : ∀ k n, getNode T.nodes k = some n → k ≠ ""

theorem acyclic_of_cert (nodes : NodeMap)
    (hchildParent : ∀ k n, getNode nodes k = some n →
      ∀ c ∈ n.childrenIds, ∃ cn, getNode nodes c = some cn ∧ cn.parentId = some k)
    (depth : String → Nat)
    (hdepth : ∀ k n, getNode nodes k = some n →
      ∀ p, n.parentId = some p → depth k = depth p + 1) :
    Acyclic nodes := by
  have mono : ∀ a b, Reach nodes a b → depth a ≤ depth b := by
    intro a b hr
    induction hr with
    | refl => exact le_refl _
    | step hab hn hc ih =>
      obtain ⟨cn, hcn, hcp⟩ := hchildParent _ _ hn _ hc
      have hd := hdepth _ _ hcn _ hcp
      omega
  intro a b hr hedge
  obtain ⟨n, hn, hmem⟩ := hedge
  obtain ⟨cn, hcn, hcp⟩ := hchildParent _ _ hn _ hmem
  have h1 := hdepth _ _ hcn _ hcp
  have h2 := mono a b hr
  omega

theorem wf_acyclic (T : ChatTree) (h : WF T) : Acyclic T.nodes := by
  obtain ⟨depth, hdepth⟩ := h.depthCert
  exact acyclic_of_cert T.nodes h.childParent depth hdepth

theorem wf_span (T : ChatTree) (h : WF T) :
    ∀ k, (getNode T.nodes k).isSome → Reach T.nodes T.rootId k := by
  obtain ⟨depth, hdepth⟩ := h.depthCert
  have main : ∀ d k n, getNode T.nodes k = some n → depth k ≤ d →
      Reach T.nodes T.rootId k := by
    intro d
    induction d with
    | zero =>
      intro k n hn hd
      cases hp : n.parentId with
      | none =>
        have hk := h.rootOnly k n hn hp
        subst hk
        exact Reach.refl _
      | some p =>
        have := hdepth k n hn p hp
        omega
    | succ d ih =>
      intro k n hn hd
      cases hp : n.parentId with
      | none =>
        have hk := h.rootOnly k n hn hp
        subst hk
        exact Reach.refl _
      | some p =>
        obtain ⟨pn, hpn, hmem⟩ := h.parentChild k n hn p hp
        have hdep := hdepth k n hn p hp
        have hr := ih p pn hpn (by omega)
        exact Reach.step hr hpn hmem
  intro k hk
  obtain ⟨n, hn⟩ := Option.isSome_iff_exists.mp hk
  exact main (depth k) k n hn (le_refl _)

theorem wf_invariantSpec (T : ChatTree) (h : WF T) : InvariantSpec T :=
  ⟨h.rootSome, h.rootOnly, h.childParent, h.parentChild, wf_span T h, wf_acyclic T h, h.activeOk⟩

theorem wf_invariants (T : ChatTree) (h : WF T) : Invariants T :=
  ⟨wf_invariantSpec T h, h.childNodup⟩

/-! ### WF preservation by the core operations -/

theorem wf_createEmptyTree (rootId : String) (t : Nat) (hne : rootId ≠ "") :
    WF (createEmptyTree rootId t) := by
  have hget : ∀ k n, getNode (createEmptyTree rootId t).nodes k = some n →
      k = rootId ∧ n = { id := rootId, title := "Root", parentId := none, childrenIds := [], isCollapsed := false, messages := [], createdAt := t, updatedAt := t } := by
    intro k n hn
    unfold createEmptyTree at hn
    rw [getNode_cons] at hn
    dsimp only at hn
    by_cases hk : rootId = k
    · rw [if_pos hk] at hn
      injection hn with hn
      exact ⟨hk.symm, hn.symm⟩
    · rw [if_neg hk] at hn
      exact Option.noConfusion hn
  have hroot : getNode (createEmptyTree rootId t).nodes rootId =
      some { id := rootId, title := "Root", parentId := none, childrenIds := [], isCollapsed := false, messages := [], createdAt := t, updatedAt := t } := by
    unfold createEmptyTree
    rw [getNode_cons]
    dsimp only
    rw [if_pos rfl]
  constructor
  · simp [createEmptyTree, keysOf]
  · intro k n hn
    obtain ⟨hk, hn2⟩ := hget k n hn
    rw [hn2, hk]
  · exact ⟨_, hroot, rfl⟩
  · intro k n hn _
    exact (hget k n hn).1
  · intro k n hn c hc
    obtain ⟨hk, hn2⟩ := hget k n hn
    subst hn2
    exact absurd hc (List.not_mem_nil c)
  · intro k n hn p hp
    obtain ⟨hk, hn2⟩ := hget k n hn
    subst hn2
    exact Option.noConfusion hp
  · intro k n hn
    obtain ⟨hk, hn2⟩ := hget k n hn
    subst hn2
    exact List.nodup_nil
  · show (getNode (createEmptyTree rootId t).nodes rootId).isSome = true
    rw [hroot]
    rfl
  · refine ⟨fun _ => 0, ?_⟩
    intro k n hn p hp
    obtain ⟨hk, hn2⟩ := hget k n hn
    subst hn2
    exact Option.noConfusion hp
  · intro k n hn
    obtain ⟨hk, _⟩ := hget k n hn
    rw [hk]
    exact hne


theorem wf_replace (T : ChatTree) (k : String) (n n2 : ChatNode)
    (h : getNode T.nodes k = some n) (hid : n2.id = n.id) (hpar : n2.parentId = n.parentId)
    (hch : n2.childrenIds = n.childrenIds) (hwf : WF T) :
    WF { T with nodes := updateOrAppend T.nodes k n2 } := by
  have hsome : (getNode T.nodes k).isSome := by rw [h]; rfl
  have hget : ∀ x, getNode (updateOrAppend T.nodes k n2) x =
      if x = k then some n2 else getNode T.nodes x := by
    intro x
    by_cases hx : x = k
    · subst hx
      rw [if_pos rfl]
      exact getNode_updateOrAppend_self _ _ _
    · rw [if_neg hx]
      exact getNode_updateOrAppend_ne _ _ _ _ hx
  constructor
  · show (keysOf (updateOrAppend T.nodes k n2)).Nodup
    rw [keysOf_updateOrAppend_of_isSome _ _ _ hsome]
    exact hwf.keysNodup
  · intro x m hm
    rw [hget] at hm
    split at hm
    · rename_i hx
      injection hm with hm
      rw [← hm, hid, hwf.idOk k n h, hx]
    · exact hwf.idOk x m hm
  · obtain ⟨r, hr, hrp⟩ := hwf.rootSome
    show ∃ r2, getNode (updateOrAppend T.nodes k n2) T.rootId = some r2 ∧ r2.parentId = none
    rw [hget]
    by_cases hx : T.rootId = k
    · rw [if_pos hx]
      refine ⟨n2, rfl, ?_⟩
      rw [hpar]
      rw [hx] at hr
      rw [h] at hr
      injection hr with hr
      rw [hr]
      exact hrp
    · rw [if_neg hx]
      exact ⟨r, hr, hrp⟩
  · intro x m hm hmp
    rw [hget] at hm
    split at hm
    · rename_i hx
      injection hm with hm
      rw [← hm, hpar] at hmp
      rw [hx]
      exact hwf.rootOnly k n h hmp
    · exact hwf.rootOnly x m hm hmp
  · intro x m hm c hc
    have step : ∀ y yn, getNode T.nodes y = some yn → yn.parentId = some x →
        ∃ cn, getNode (updateOrAppend T.nodes k n2) y = some cn ∧ cn.parentId = some x := by
      intro y yn hy hyp
      rw [hget]
      by_cases hyk : y = k
      · rw [if_pos hyk]
        refine ⟨n2, rfl, ?_⟩
        rw [hpar]
        rw [hyk, h] at hy
        injection hy with hy
        rw [hy]
        exact hyp
      · rw [if_neg hyk]
        exact ⟨yn, hy, hyp⟩
    rw [hget] at hm
    split at hm
    · rename_i hx
      injection hm with hm
      rw [← hm, hch] at hc
      subst hx
      obtain ⟨cn, hcn, hcp⟩ := hwf.childParent x n h c hc
      exact step c cn hcn hcp
    · obtain ⟨cn, hcn, hcp⟩ := hwf.childParent x m hm c hc
      exact step c cn hcn hcp
  · intro x m hm p hp
    have step : ∀ y yn, getNode T.nodes y = some yn → x ∈ yn.childrenIds →
        ∃ pn, getNode (updateOrAppend T.nodes k n2) y = some pn ∧ x ∈ pn.childrenIds := by
      intro y yn hy hymem
      rw [hget]
      by_cases hyk : y = k
      · rw [if_pos hyk]
        refine ⟨n2, rfl, ?_⟩
        rw [hch]
        rw [hyk, h] at hy
        injection hy with hy
        rw [hy]
        exact hymem
      · rw [if_neg hyk]
        exact ⟨yn, hy, hymem⟩
    rw [hget] at hm
    split at hm
    · rename_i hx
      injection hm with hm
      rw [← hm, hpar] at hp
      subst hx
      obtain ⟨pn, hpn, hmem⟩ := hwf.parentChild x n h p hp
      exact step p pn hpn hmem
    · obtain ⟨pn, hpn, hmem⟩ := hwf.parentChild x m hm p hp
      exact step p pn hpn hmem
  · intro x m hm
    rw [hget] at hm
    split at hm
    · injection hm with hm
      rw [← hm, hch]
      exact hwf.childNodup k n h
    · exact hwf.childNodup x m hm
  · show (getNode (updateOrAppend T.nodes k n2) T.activeNodeId).isSome
    rw [hget]
    split
    · rfl
    · exact hwf.activeOk
  · obtain ⟨depth, hdepth⟩ := hwf.depthCert
    refine ⟨depth, ?_⟩
    intro x m hm p hp
    rw [hget] at hm
    split at hm
    · rename_i hx
      injection hm with hm
      rw [← hm, hpar] at hp
      subst hx
      exact hdepth x n h p hp
    · exact hdepth x m hm p hp
  · intro x m hm
    rw [hget] at hm
    split at hm
    · rename_i hx
      rw [hx]
      exact hwf.keysNonempty k n h
    · exact hwf.keysNonempty x m hm

theorem wf_toggleCollapse (T : ChatTree) (nodeId : String) (t : Nat) (hwf : WF T) :
    WF (toggleCollapse T nodeId t) := by
  cases hget : getNode T.nodes nodeId with
  | none =>
    have : toggleCollapse T nodeId t = T := by unfold toggleCollapse; rw [hget]
    rw [this]
    exact hwf
  | some node =>
    rw [toggleCollapse_of_some T nodeId t node hget]
    exact wf_replace T nodeId node _ hget rfl rfl rfl hwf

theorem wf_setActiveNode (T : ChatTree) (nodeId : String) (hwf : WF T) :
    WF (setActiveNode T nodeId) := by
  by_cases hget : (getNode T.nodes nodeId).isSome
  · rw [setActiveNode_of_isSome T nodeId hget]
    exact ⟨hwf.keysNodup, hwf.idOk, hwf.rootSome, hwf.rootOnly, hwf.childParent,
      hwf.parentChild, hwf.childNodup, hget, hwf.depthCert, hwf.keysNonempty⟩
  · have : setActiveNode T nodeId = T := by unfold setActiveNode; rw [if_neg hget]
    rw [this]
    exact hwf

theorem wf_appendMessage (T : ChatTree) (nodeId : String) (role : Role)
    (content msgId : String) (mt t : Nat) (hwf : WF T) :
    WF (appendMessage T nodeId role content msgId mt t) := by
  cases hget : getNode T.nodes nodeId with
  | none =>
    have : appendMessage T nodeId role content msgId mt t = T := by
      unfold appendMessage; rw [hget]
    rw [this]
    exact hwf
  | some node =>
    rw [appendMessage_of_some T nodeId role content msgId mt t node hget]
    exact wf_replace T nodeId node _ hget rfl rfl rfl hwf

theorem wf_renameNode (T : ChatTree) (nodeId title : String) (t : Nat) (hwf : WF T) :
    WF (renameNode T nodeId title t) := by
  cases hget : getNode T.nodes nodeId with
  | none =>
    have : renameNode T nodeId title t = T := by unfold renameNode; rw [hget]
    rw [this]
    exact hwf
  | some node =>
    rw [renameNode_of_some T nodeId title t node hget]
    exact wf_replace T nodeId node _ hget rfl rfl rfl hwf

theorem wf_addChild (T : ChatTree) (parentId childId : String) (t : Nat)
    (hwf : WF T) (hfresh : getNode T.nodes childId = none) (hchild : childId ≠ "") :
    WF (addChild T parentId childId t) := by
  cases hget : getNode T.nodes parentId with
  | none =>
    have : addChild T parentId childId t = T := by unfold addChild; rw [hget]
    rw [this]
    exact hwf
  | some parent =>
    rw [addChild_of_some T parentId childId t parent hget]
    generalize hP : ({ parent with childrenIds := parent.childrenIds ++ [childId], updatedAt := t } : ChatNode) = P
    generalize hC : ({ id := childId, title := "New thread", parentId := some parentId, childrenIds := [], isCollapsed := false, messages := [], createdAt := t, updatedAt := t } : ChatNode) = C
    have hPid : P.id = parent.id := by rw [← hP]
    have hPpar : P.parentId = parent.parentId := by rw [← hP]
    have hPch : P.childrenIds = parent.childrenIds ++ [childId] := by rw [← hP]
    have hCid : C.id = childId := by rw [← hC]
    have hCpar : C.parentId = some parentId := by rw [← hC]
    have hCch : C.childrenIds = [] := by rw [← hC]
    have hcpne : childId ≠ parentId := by
      intro hc
      rw [hc, hget] at hfresh
      exact Option.noConfusion hfresh
    have hne : ∀ x n, getNode T.nodes x = some n → x ≠ childId := by
      intro x n hx hc
      rw [hc, hfresh] at hx
      exact Option.noConfusion hx
    have hN1some : (getNode T.nodes parentId).isSome := by rw [hget]; rfl
    have hN1 : ∀ x, getNode (updateOrAppend T.nodes parentId P) x =
        if x = parentId then some P else getNode T.nodes x := by
      intro x
      by_cases hx : x = parentId
      · subst hx
        rw [if_pos rfl]
        exact getNode_updateOrAppend_self _ _ _
      · rw [if_neg hx]
        exact getNode_updateOrAppend_ne _ _ _ _ hx
    have hN : ∀ x, getNode (updateOrAppend (updateOrAppend T.nodes parentId P) childId C) x =
        if x = childId then some C else if x = parentId then some P else getNode T.nodes x := by
      intro x
      by_cases hx : x = childId
      · subst hx
        rw [if_pos rfl]
        exact getNode_updateOrAppend_self _ _ _
      · rw [if_neg hx, getNode_updateOrAppend_ne _ _ _ _ hx]
        exact hN1 x
    have hidOk : ∀ x n, getNode (updateOrAppend (updateOrAppend T.nodes parentId P) childId C) x = some n → n.id = x := by
      intro x n hn
      rw [hN x] at hn
      split at hn
      · rename_i hx
        injection hn with hn
        rw [← hn, hCid, hx]
      · split at hn
        · rename_i hx2
          injection hn with hn
          rw [← hn, hPid, hwf.idOk parentId parent hget, hx2]
        · exact hwf.idOk x n hn
    have lift : ∀ y yn, getNode T.nodes y = some yn →
        ∃ yn2, getNode (updateOrAppend (updateOrAppend T.nodes parentId P) childId C) y = some yn2 ∧
          yn2.parentId = yn.parentId ∧ ∀ z ∈ yn.childrenIds, z ∈ yn2.childrenIds := by
      intro y yn hy
      have hyne : y ≠ childId := hne y yn hy
      by_cases hyp2 : y = parentId
      · subst hyp2
        rw [hget] at hy
        injection hy with hy
        refine ⟨P, ?_, ?_, ?_⟩
        · rw [hN, if_neg hyne, if_pos rfl]
        · rw [hPpar, hy]
        · intro z hz
          rw [hPch, hy]
          exact List.mem_append.mpr (Or.inl hz)
      · refine ⟨yn, ?_, rfl, fun z hz => hz⟩
        rw [hN, if_neg hyne, if_neg hyp2]
        exact hy
    refine ⟨?_, ?_, ?_, ?_, ?_, ?_, ?_, ?_, ?_, ?_⟩
    · show (keysOf (updateOrAppend (updateOrAppend T.nodes parentId P) childId C)).Nodup
      have hchnone : getNode (updateOrAppend T.nodes parentId P) childId = none := by
        rw [hN1, if_neg hcpne]
        exact hfresh
      rw [keysOf_updateOrAppend_of_none _ _ _ hchnone,
        keysOf_updateOrAppend_of_isSome _ _ _ hN1some]
      have hnotin : childId ∉ keysOf T.nodes := (getNode_eq_none_iff _ _).mp hfresh
      simp [List.nodup_append, hwf.keysNodup, hnotin]
    · exact hidOk
    · show ∃ r, getNode (updateOrAppend (updateOrAppend T.nodes parentId P) childId C) T.rootId = some r ∧ r.parentId = none
      obtain ⟨r, hr, hrp⟩ := hwf.rootSome
      obtain ⟨r2, hr2, hr2p, _⟩ := lift T.rootId r hr
      refine ⟨r2, hr2, ?_⟩
      rw [hr2p, hrp]
    · intro x n hn hnp
      show x = T.rootId
      rw [hN x] at hn
      split at hn
      · rename_i hx
        injection hn with hn
        rw [← hn, hCpar] at hnp
        exact Option.noConfusion hnp
      · split at hn
        · rename_i hx2
          injection hn with hn
          rw [← hn, hPpar] at hnp
          rw [hx2]
          exact hwf.rootOnly parentId parent hget hnp
        · exact hwf.rootOnly x n hn hnp
    · intro x n hn c hc
      rw [hN x] at hn
      split at hn
      · rename_i hx
        injection hn with hn
        rw [← hn, hCch] at hc
        exact absurd hc (List.not_mem_nil c)
      · split at hn
        · rename_i hx2
          injection hn with hn
          rw [← hn, hPch] at hc
          rcases List.mem_append.mp hc with h1 | h1
          · obtain ⟨cn, hcn, hcp⟩ := hwf.childParent parentId parent hget c h1
            obtain ⟨cn2, hcn2, hcn2p, _⟩ := lift c cn hcn
            refine ⟨cn2, hcn2, ?_⟩
            rw [hcn2p, hcp, hx2]
          · rw [List.mem_singleton.mp h1, hx2]
            refine ⟨C, ?_, hCpar⟩
            rw [hN, if_pos rfl]
        · obtain ⟨cn, hcn, hcp⟩ := hwf.childParent x n hn c hc
          obtain ⟨cn2, hcn2, hcn2p, _⟩ := lift c cn hcn
          refine ⟨cn2, hcn2, ?_⟩
          rw [hcn2p, hcp]
    · intro x n hn p hp
      rw [hN x] at hn
      split at hn
      · rename_i hx
        injection hn with hn
        rw [← hn, hCpar] at hp
        injection hp with hp
        subst hp
        refine ⟨P, ?_, ?_⟩
        · rw [hN, if_neg (fun hc => hcpne hc.symm), if_pos rfl]
        · rw [hPch, hx]
          exact List.mem_append.mpr (Or.inr (List.mem_singleton.mpr rfl))
      · split at hn
        · rename_i hx2
          injection hn with hn
          rw [← hn, hPpar] at hp
          obtain ⟨pn, hpn, hmem⟩ := hwf.parentChild parentId parent hget p hp
          obtain ⟨pn2, hpn2, _, hsub⟩ := lift p pn hpn
          refine ⟨pn2, hpn2, ?_⟩
          rw [hx2]
          exact hsub parentId hmem
        · obtain ⟨pn, hpn, hmem⟩ := hwf.parentChild x n hn p hp
          obtain ⟨pn2, hpn2, _, hsub⟩ := lift p pn hpn
          exact ⟨pn2, hpn2, hsub x hmem⟩
    · intro x n hn
      rw [hN x] at hn
      split at hn
      · injection hn with hn
        rw [← hn, hCch]
        exact List.nodup_nil
      · split at hn
        · injection hn with hn
          rw [← hn, hPch]
          have hnotin : childId ∉ parent.childrenIds := by
            intro hc
            obtain ⟨cn, hcn, _⟩ := hwf.childParent parentId parent hget childId hc
            rw [hfresh] at hcn
            exact Option.noConfusion hcn
          simp [List.nodup_append, hwf.childNodup parentId parent hget, hnotin]
        · exact hwf.childNodup x n hn
    · show (getNode (updateOrAppend (updateOrAppend T.nodes parentId P) childId C) childId).isSome = true
      rw [hN, if_pos rfl]
      rfl
    · obtain ⟨depth, hdepth⟩ := hwf.depthCert
      refine ⟨fun x => if x = childId then depth parentId + 1 else depth x, ?_⟩
      intro x n hn p hp
      dsimp only
      have keyne : ∀ y yn, getNode T.nodes y = some yn → (if y = childId then depth parentId + 1 else depth y) = depth y := by
        intro y yn hy
        rw [if_neg (hne y yn hy)]
      rw [hN x] at hn
      split at hn
      · rename_i hx
        injection hn with hn
        rw [← hn, hCpar] at hp
        injection hp with hp
        subst hp
        rw [if_pos hx, keyne parentId parent hget]
      · split at hn
        · rename_i hx2
          injection hn with hn
          rw [← hn, hPpar] at hp
          obtain ⟨pn, hpn, _⟩ := hwf.parentChild parentId parent hget p hp
          rw [hx2, if_neg (fun hc => hcpne hc.symm), keyne p pn hpn]
          exact hdepth parentId parent hget p hp
        · obtain ⟨pn, hpn, _⟩ := hwf.parentChild x n hn p hp
          rw [keyne x n hn, keyne p pn hpn]
          exact hdepth x n hn p hp
    · intro x n2 hn2
      rw [hN x] at hn2
      split at hn2
      · rename_i hx
        rw [hx]
        exact hchild
      · split at hn2
        · rename_i hx2
          rw [hx2]
          exact hwf.keysNonempty parentId parent hget
        · exact hwf.keysNonempty x n2 hn2

/-! ### Characterization of deleteSubtree and reachability facts -/

theorem deleteSubtree_of_some (T : ChatTree) (nodeId : String) (t : Nat) (node pn : ChatNode)
    (p : String) (hroot : nodeId ≠ T.rootId) (hn : getNode T.nodes nodeId = some node)
    (hp : node.parentId = some p) (hpne : p ≠ "") (hpn : getNode T.nodes p = some pn) :
    deleteSubtree T nodeId t =
      { T with
        activeNodeId :=
          if T.activeNodeId ∈ collectLoop T.nodes [nodeId] [] then p else T.activeNodeId
        nodes :=
          updateOrAppend
            (T.nodes.filter (fun e => decide (e.1 ∉ collectLoop T.nodes [nodeId] [])))
            p
            { pn with
              childrenIds :=
                pn.childrenIds.filter (fun cid => decide (cid ∉ collectLoop T.nodes [nodeId] []))
              updatedAt := t } } := by
  unfold deleteSubtree
  rw [if_neg hroot, hn]
  dsimp only
  rw [hp]
  dsimp only
  rw [if_neg hpne, hpn]
  dsimp only [Option.getD_some]

theorem deleteSubtree_of_falsy_parent (T : ChatTree) (nodeId : String) (t : Nat)
    (node : ChatNode) (hroot : nodeId ≠ T.rootId) (hn : getNode T.nodes nodeId = some node)
    (hp : node.parentId = some "") :
    deleteSubtree T nodeId t =
      { T with
        activeNodeId :=
          if T.activeNodeId ∈ collectLoop T.nodes [nodeId] [] then "" else T.activeNodeId
        nodes := T.nodes.filter (fun e => decide (e.1 ∉ collectLoop T.nodes [nodeId] [])) } := by
  unfold deleteSubtree
  rw [if_neg hroot, hn]
  dsimp only
  rw [hp]
  dsimp only
  rw [if_pos rfl]
  dsimp only [Option.getD_some]

theorem reach_not_parent (T : ChatTree) (nodeId p : String) (node : ChatNode)
    (hspec : InvariantSpec T) (hn : getNode T.nodes nodeId = some node)
    (hp : node.parentId = some p) : ¬ Reach T.nodes nodeId p := by
  intro hreach
  obtain ⟨_, _, _, hparentChild, _, hacyc, _⟩ := hspec
  obtain ⟨pn, hpn, hmem⟩ := hparentChild nodeId node hn p hp
  exact hacyc nodeId p hreach ⟨pn, hpn, hmem⟩

theorem reach_not_root (T : ChatTree) (nodeId : String)
    (hspec : InvariantSpec T) (hroot : nodeId ≠ T.rootId) :
    ¬ Reach T.nodes nodeId T.rootId := by
  intro hreach
  obtain ⟨hrootSome, _, hchildParent, _, _, _, _⟩ := hspec
  cases hreach with
  | refl => exact hroot rfl
  | step hab hnb hcb =>
    obtain ⟨cn, hcn, hcp⟩ := hchildParent _ _ hnb _ hcb
    obtain ⟨r, hr, hrp⟩ := hrootSome
    rw [hr] at hcn
    injection hcn with hcn
    rw [hcn] at hrp
    rw [hrp] at hcp
    exact Option.noConfusion hcp

theorem reach_child_of_survivor (T : ChatTree) (nodeId s c : String) (sn : ChatNode)
    (hspec : InvariantSpec T) (hnotin : ¬ Reach T.nodes nodeId s)
    (hsn : getNode T.nodes s = some sn) (hc : c ∈ sn.childrenIds)
    (hcr : Reach T.nodes nodeId c) : c = nodeId := by
  obtain ⟨_, _, hchildParent, _, _, _, _⟩ := hspec
  cases hcr with
  | refl => rfl
  | step hab hnb hcb =>
    obtain ⟨cn, hcn, hcp⟩ := hchildParent _ _ hnb _ hcb
    obtain ⟨cn2, hcn2, hcp2⟩ := hchildParent s sn hsn c hc
    rw [hcn] at hcn2
    injection hcn2 with hcn2
    rw [hcn2] at hcp
    rw [hcp2] at hcp
    injection hcp with hcp
    rw [← hcp] at hab
    exact absurd hab hnotin

theorem reach_parent_of_survivor (T : ChatTree) (nodeId s q : String) (sn : ChatNode)
    (hspec : InvariantSpec T) (hnotin : ¬ Reach T.nodes nodeId s)
    (hsn : getNode T.nodes s = some sn) (hq : sn.parentId = some q) :
    ¬ Reach T.nodes nodeId q := by
  intro hreach
  obtain ⟨_, _, _, hparentChild, _, _, _⟩ := hspec
  obtain ⟨qn, hqn, hmem⟩ := hparentChild s sn hsn q hq
  exact hnotin (Reach.step hreach hqn hmem)

theorem parent_ne_deleted (T : ChatTree) (nodeId p : String) (node : ChatNode)
    (hspec : InvariantSpec T) (hn : getNode T.nodes nodeId = some node)
    (hp : node.parentId = some p) : p ≠ nodeId := by
  intro he
  apply reach_not_parent T nodeId p node hspec hn hp
  rw [he]
  exact Reach.refl _

theorem reach_getNode_isSome (T : ChatTree) (nodeId x : String) (node : ChatNode)
    (hspec : InvariantSpec T) (hn : getNode T.nodes nodeId = some node)
    (hx : Reach T.nodes nodeId x) : (getNode T.nodes x).isSome := by
  obtain ⟨_, _, hchildParent, _, _, _, _⟩ := hspec
  induction hx with
  | refl => rw [hn]; rfl
  | step hab hnb hcb ih =>
    obtain ⟨cn, hcn, _⟩ := hchildParent _ _ hnb _ hcb
    rw [hcn]
    rfl

theorem getNode_filter_notin (T : ChatTree) (D : List String) (x : String) :
    getNode (T.nodes.filter (fun e => decide (e.1 ∉ D))) x =
      if x ∈ D then none else getNode T.nodes x := by
  rw [getNode_filterKeys T.nodes (fun s => decide (s ∉ D)) x]
  by_cases hx : x ∈ D
  · simp [hx]
  · simp [hx]

theorem deleteSubtree_nodes_char (T : ChatTree) (nodeId : String) (t : Nat) (node pn : ChatNode)
    (p : String) (hroot : nodeId ≠ T.rootId) (hn : getNode T.nodes nodeId = some node)
    (hp : node.parentId = some p) (hpne : p ≠ "") (hpn : getNode T.nodes p = some pn) :
    ∀ x, getNode (deleteSubtree T nodeId t).nodes x =
      if x = p then
        some { pn with
               childrenIds :=
                 pn.childrenIds.filter (fun cid => decide (cid ∉ collectLoop T.nodes [nodeId] []))
               updatedAt := t }
      else if x ∈ collectLoop T.nodes [nodeId] [] then none
      else getNode T.nodes x := by
  intro x
  rw [deleteSubtree_of_some T nodeId t node pn p hroot hn hp hpne hpn]
  dsimp only
  by_cases hx : x = p
  · subst hx
    rw [if_pos rfl]
    exact getNode_updateOrAppend_self _ _ _
  · rw [if_neg hx, getNode_updateOrAppend_ne _ _ _ _ hx]
    exact getNode_filter_notin T _ x

theorem deleteSubtree_active_char (T : ChatTree) (nodeId : String) (t : Nat) (node pn : ChatNode)
    (p : String) (hroot : nodeId ≠ T.rootId) (hn : getNode T.nodes nodeId = some node)
    (hp : node.parentId = some p) (hpne : p ≠ "") (hpn : getNode T.nodes p = some pn) :
    (deleteSubtree T nodeId t).activeNodeId =
      (if T.activeNodeId ∈ collectLoop T.nodes [nodeId] [] then p else T.activeNodeId) ∧
    (deleteSubtree T nodeId t).rootId = T.rootId := by
  rw [deleteSubtree_of_some T nodeId t node pn p hroot hn hp hpne hpn]
  exact ⟨rfl, rfl⟩

theorem wf_deleteSubtree (T : ChatTree) (nodeId : String) (t : Nat) (hwf : WF T) :
    WF (deleteSubtree T nodeId t) := by
  by_cases hroot : nodeId = T.rootId
  · have heq : deleteSubtree T nodeId t = T := by unfold deleteSubtree; rw [if_pos hroot]
    rw [heq]
    exact hwf
  cases hn : getNode T.nodes nodeId with
  | none =>
    have heq : deleteSubtree T nodeId t = T := by
      unfold deleteSubtree
      rw [if_neg hroot, hn]
    rw [heq]
    exact hwf
  | some node =>
    have hspec := wf_invariantSpec T hwf
    cases hpcase : node.parentId with
    | none => exact absurd (hwf.rootOnly nodeId node hn hpcase) hroot
    | some p =>
      obtain ⟨pn, hpn, hpmem⟩ := hwf.parentChild nodeId node hn p hpcase
      have hpne : p ≠ "" := hwf.keysNonempty p pn hpn
      have hchar := deleteSubtree_nodes_char T nodeId t node pn p hroot hn hpcase hpne hpn
      have hact := deleteSubtree_active_char T nodeId t node pn p hroot hn hpcase hpne hpn
      have hDreach : ∀ x, x ∈ collectLoop T.nodes [nodeId] [] ↔ Reach T.nodes nodeId x :=
        collectLoop_mem_iff_reach T.nodes nodeId
      have hpnotD : p ∉ collectLoop T.nodes [nodeId] [] := fun hc =>
        reach_not_parent T nodeId p node hspec hn hpcase ((hDreach p).mp hc)
      have hrootnotD : T.rootId ∉ collectLoop T.nodes [nodeId] [] := fun hc =>
        reach_not_root T nodeId hspec hroot ((hDreach _).mp hc)
      have hrootT : (deleteSubtree T nodeId t).rootId = T.rootId := hact.2
      have liftDel : ∀ y yn, getNode T.nodes y = some yn →
          y ∉ collectLoop T.nodes [nodeId] [] →
          ∃ yn2, getNode (deleteSubtree T nodeId t).nodes y = some yn2 ∧
            yn2.parentId = yn.parentId ∧
            (∀ z, z ∈ yn.childrenIds → z ∉ collectLoop T.nodes [nodeId] [] →
              z ∈ yn2.childrenIds) := by
        intro y yn hy hynot
        by_cases hyp2 : y = p
        · subst hyp2
          rw [hpn] at hy
          injection hy with hy
          subst hy
          refine ⟨{ pn with childrenIds := pn.childrenIds.filter (fun cid => decide (cid ∉ collectLoop T.nodes [nodeId] [])), updatedAt := t }, ?_, rfl, ?_⟩
          · rw [hchar y, if_pos rfl]
          · intro z hz hznot
            exact List.mem_filter.mpr ⟨hz, decide_eq_true hznot⟩
        · refine ⟨yn, ?_, rfl, fun z hz _ => hz⟩
          rw [hchar y, if_neg hyp2, if_neg hynot]
          exact hy
      have survChild : ∀ y yn, getNode T.nodes y = some yn →
          y ∉ collectLoop T.nodes [nodeId] [] → y ≠ p →
          ∀ c ∈ yn.childrenIds, c ∉ collectLoop T.nodes [nodeId] [] := by
        intro y yn hy hynot hyp2 c hc hcD
        have hcn : c = nodeId :=
          reach_child_of_survivor T nodeId y c yn hspec
            (fun hr => hynot ((hDreach y).mpr hr)) hy hc ((hDreach c).mp hcD)
        subst hcn
        obtain ⟨cn, hcn2, hcp2⟩ := hspec.2.2.1 y yn hy c hc
        rw [hn] at hcn2
        injection hcn2 with hcn2
        rw [← hcn2] at hcp2
        rw [hpcase] at hcp2
        injection hcp2 with hcp2
        exact hyp2 hcp2.symm
      refine ⟨?_, ?_, ?_, ?_, ?_, ?_, ?_, ?_, ?_, ?_⟩
      · rw [deleteSubtree_of_some T nodeId t node pn p hroot hn hpcase hpne hpn]
        show (keysOf (updateOrAppend (T.nodes.filter _) p _)).Nodup
        have hfp : (getNode (T.nodes.filter (fun e => decide (e.1 ∉ collectLoop T.nodes [nodeId] []))) p).isSome := by
          rw [getNode_filter_notin T _ p]
          rw [if_neg hpnotD, hpn]
          rfl
        rw [keysOf_updateOrAppend_of_isSome _ _ _ hfp,
          keysOf_filterKeys T.nodes (fun s => decide (s ∉ collectLoop T.nodes [nodeId] []))]
        exact List.Nodup.filter _ hwf.keysNodup
      · intro x n hn2
        rw [hchar x] at hn2
        split at hn2
        · rename_i hx
          injection hn2 with hn2
          rw [← hn2, hx]
          exact hwf.idOk p pn hpn
        · split at hn2
          · exact Option.noConfusion hn2
          · exact hwf.idOk x n hn2
      · rw [hrootT]
        obtain ⟨r, hr, hrp⟩ := hwf.rootSome
        have hrnot : T.rootId ∉ collectLoop T.nodes [nodeId] [] := hrootnotD
        obtain ⟨r2, hr2, hr2p, _⟩ := liftDel T.rootId r hr hrnot
        refine ⟨r2, hr2, ?_⟩
        rw [hr2p, hrp]
      · intro x n hn2 hnp
        rw [hrootT]
        rw [hchar x] at hn2
        split at hn2
        · rename_i hx
          injection hn2 with hn2
          rw [← hn2] at hnp
          rw [hx]
          exact hwf.rootOnly p pn hpn hnp
        · split at hn2
          · exact Option.noConfusion hn2
          · exact hwf.rootOnly x n hn2 hnp
      · intro x n hn2 c hc
        rw [hchar x] at hn2
        split at hn2
        · rename_i hx
          injection hn2 with hn2
          rw [← hn2] at hc
          have hcmem := List.mem_filter.mp hc
          have hcin : c ∈ pn.childrenIds := hcmem.1
          have hcnot : c ∉ collectLoop T.nodes [nodeId] [] := by
            have := hcmem.2
            simp at this
            exact this
          obtain ⟨cn, hcn, hcp⟩ := hwf.childParent p pn hpn c hcin
          obtain ⟨cn2, hcn2, hcn2p, _⟩ := liftDel c cn hcn hcnot
          refine ⟨cn2, hcn2, ?_⟩
          rw [hcn2p, hcp, hx]
        · split at hn2
          · exact Option.noConfusion hn2
          · rename_i hx hxD
            obtain ⟨cn, hcn, hcp⟩ := hwf.childParent x n hn2 c hc
            have hcnot : c ∉ collectLoop T.nodes [nodeId] [] :=
              survChild x n hn2 hxD hx c hc
            obtain ⟨cn2, hcn2, hcn2p, _⟩ := liftDel c cn hcn hcnot
            refine ⟨cn2, hcn2, ?_⟩
            rw [hcn2p, hcp]
      · intro x n hn2 q hq
        rw [hchar x] at hn2
        split at hn2
        · rename_i hx
          injection hn2 with hn2
          rw [← hn2] at hq
          have hq2 : pn.parentId = some q := hq
          obtain ⟨qn, hqn, hqmem⟩ := hwf.parentChild p pn hpn q hq2
          have hqnot : q ∉ collectLoop T.nodes [nodeId] [] := fun hcD =>
            reach_parent_of_survivor T nodeId p q pn hspec
              (fun hr => hpnotD ((hDreach p).mpr hr)) hpn hq2 ((hDreach q).mp hcD)
          obtain ⟨qn2, hqn2, _, hsub⟩ := liftDel q qn hqn hqnot
          refine ⟨qn2, hqn2, ?_⟩
          rw [hx]
          exact hsub p hqmem hpnotD
        · split at hn2
          · exact Option.noConfusion hn2
          · rename_i hx hxD
            obtain ⟨qn, hqn, hqmem⟩ := hwf.parentChild x n hn2 q hq
            have hqnot : q ∉ collectLoop T.nodes [nodeId] [] := fun hcD =>
              reach_parent_of_survivor T nodeId x q n hspec
                (fun hr => hxD ((hDreach x).mpr hr)) hn2 hq ((hDreach q).mp hcD)
            obtain ⟨qn2, hqn2, _, hsub⟩ := liftDel q qn hqn hqnot
            exact ⟨qn2, hqn2, hsub x hqmem hxD⟩
      · intro x n hn2
        rw [hchar x] at hn2
        split at hn2
        · injection hn2 with hn2
          rw [← hn2]
          exact List.Nodup.filter _ (hwf.childNodup p pn hpn)
        · split at hn2
          · exact Option.noConfusion hn2
          · exact hwf.childNodup x n hn2
      · show (getNode (deleteSubtree T nodeId t).nodes (deleteSubtree T nodeId t).activeNodeId).isSome = true
        rw [hact.1]
        by_cases hAD : T.activeNodeId ∈ collectLoop T.nodes [nodeId] []
        · rw [if_pos hAD, hchar p, if_pos rfl]
          rfl
        · rw [if_neg hAD, hchar T.activeNodeId]
          by_cases hap : T.activeNodeId = p
          · rw [if_pos hap]
            rfl
          · rw [if_neg hap, if_neg hAD]
            exact hwf.activeOk
      · obtain ⟨depth, hdepth⟩ := hwf.depthCert
        refine ⟨depth, ?_⟩
        intro x n hn2 q hq
        rw [hchar x] at hn2
        split at hn2
        · rename_i hx
          injection hn2 with hn2
          rw [← hn2] at hq
          rw [hx]
          exact hdepth p pn hpn q hq
        · split at hn2
          · exact Option.noConfusion hn2
          · exact hdepth x n hn2 q hq
      · intro x n2 hn2
        rw [hchar x] at hn2
        split at hn2
        · rename_i hx
          rw [hx]
          exact hpne
        · split at hn2
          · exact Option.noConfusion hn2
          · exact hwf.keysNonempty x n2 hn2

/-! ### Claim C1: all reachable trees satisfy the structural invariants -/

theorem reachable_wf (T : ChatTree) (h : Reachable T) : WF T := by
  induction h with
  | create rootId t hne => exact wf_createEmptyTree rootId t hne
  | add parentId childId t _ hfresh hchild ih =>
    exact wf_addChild _ parentId childId t ih hfresh hchild
  | toggle nodeId t _ ih => exact wf_toggleCollapse _ nodeId t ih
  | setActive nodeId _ ih => exact wf_setActiveNode _ nodeId ih
  | append nodeId role content msgId mt t _ ih =>
    exact wf_appendMessage _ nodeId role content msgId mt t ih
  | rename nodeId title t _ ih => exact wf_renameNode _ nodeId title t ih
  | delete nodeId t _ ih => exact wf_deleteSubtree _ nodeId t ih

/-- C1: every tree reachable from `createEmptyTree` by finite composition
of the core operations (with freshness of generated ids as a hypothesis)
satisfies the structural invariants: the root exists with no parent and is
the only parentless node, children point back to their parent, nodes with
a parent appear in the parent's children, the graph from the root is
acyclic and spans all entries, and the active node resolves. -/
theorem c1_reachable_invariants (T : ChatTree) (h : Reachable T) : InvariantSpec T :=
  wf_invariantSpec T (reachable_wf T h)

/-- Witness for C1 at a concrete reachable tree. -/
theorem c1_witness :
    InvariantSpec (deleteSubtree (addChild (createEmptyTree "r" 0) "r" "c" 1) "c" 2) :=
  c1_reachable_invariants _
    (Reachable.delete "c" 2 (Reachable.add "r" "c" 1 (Reachable.create "r" 0 (by decide)) rfl (by decide)))

/-! ### Claim C2: the behavior of deleteSubtree on invariant trees -/

/-- C2 (amended): for every tree satisfying the structural invariants and
every existing non-root `nodeId` whose parent id is nonempty (JS-truthy;
ids generated by the code always are), `deleteSubtree` removes exactly
the ids reachable from `nodeId` (inclusive), removes `nodeId` from its
former parent's `childrenIds` with the parent's `updatedAt` refreshed,
repairs the active node to the former parent exactly when the previously
active node was deleted, and the resulting active node always resolves to
a surviving node.  For an empty-string parent id the source's truthiness
guard skips the parent update (see the C2 counterexample). -/
theorem c2_deleteSubtree_behavior (T : ChatTree) (nodeId p : String) (node pn : ChatNode)
    (t : Nat) (hspec : InvariantSpec T) (hn : getNode T.nodes nodeId = some node)
    (hroot : nodeId ≠ T.rootId) (hp : node.parentId = some p) (hpne : p ≠ "")
    (hpn : getNode T.nodes p = some pn) : DeleteSpec T nodeId p pn t := by
  have hchar := deleteSubtree_nodes_char T nodeId t node pn p hroot hn hp hpne hpn
  have hact := deleteSubtree_active_char T nodeId t node pn p hroot hn hp hpne hpn
  have hDreach := collectLoop_mem_iff_reach T.nodes nodeId
  have hpreach : ¬ Reach T.nodes nodeId p := reach_not_parent T nodeId p node hspec hn hp
  have hpnotD : p ∉ collectLoop T.nodes [nodeId] [] := fun hc => hpreach ((hDreach p).mp hc)
  unfold DeleteSpec
  refine ⟨?_, ?_, ?_, ?_, ?_, ?_, ?_⟩
  · intro x hx
    have hxp : x ≠ p := by
      intro he
      rw [he] at hx
      exact hpreach hx
    rw [hchar x, if_neg hxp, if_pos ((hDreach x).mpr hx)]
  · intro x hx hxp
    rw [hchar x, if_neg hxp, if_neg (fun hc => hx ((hDreach x).mp hc))]
  · rw [hchar p, if_pos rfl]
    have hfeq : pn.childrenIds.filter (fun cid => decide (cid ∉ collectLoop T.nodes [nodeId] []))
        = pn.childrenIds.filter (fun c => decide (c ≠ nodeId)) := by
      apply List.filter_congr
      intro c hc
      apply decide_eq_decide.mpr
      constructor
      · intro hnotin he
        exact hnotin (he ▸ collectLoop_start_mem T.nodes nodeId)
      · intro hne hcD
        exact hne (reach_child_of_survivor T nodeId p c pn hspec hpreach hpn hc
          ((hDreach c).mp hcD))
    rw [hfeq]
  · intro hx
    rw [hact.1, if_pos ((hDreach _).mpr hx)]
  · intro hx
    rw [hact.1, if_neg (fun hc => hx ((hDreach _).mp hc))]
  · by_cases hAD : T.activeNodeId ∈ collectLoop T.nodes [nodeId] []
    · rw [hact.1, if_pos hAD, hchar p, if_pos rfl]
      rfl
    · rw [hact.1, if_neg hAD, hchar T.activeNodeId]
      by_cases hap : T.activeNodeId = p
      · rw [if_pos hap]
        rfl
      · rw [if_neg hap, if_neg hAD]
        exact hspec.2.2.2.2.2.2
  · exact hact.2

/-- Witness for C2 at a concrete two-node tree. -/
theorem c2_witness :
    InvariantSpec (addChild (createEmptyTree "r" 0) "r" "c" 1) ∧
    getNode (addChild (createEmptyTree "r" 0) "r" "c" 1).nodes "c" =
      some { id := "c", title := "New thread", parentId := some "r", childrenIds := [],
             isCollapsed := false, messages := [], createdAt := 1, updatedAt := 1 } ∧
    ("c" : String) ≠ (addChild (createEmptyTree "r" 0) "r" "c" 1).rootId ∧
    DeleteSpec (addChild (createEmptyTree "r" 0) "r" "c" 1) "c" "r"
      { id := "r", title := "Root", parentId := none, childrenIds := ["c"],
        isCollapsed := false, messages := [], createdAt := 0, updatedAt := 1 } 5 :=
  ⟨wf_invariantSpec _ (reachable_wf _ (Reachable.add "r" "c" 1 (Reachable.create "r" 0 (by decide)) rfl (by decide))),
   rfl,
   by decide,
   c2_deleteSubtree_behavior (addChild (createEmptyTree "r" 0) "r" "c" 1) "c" "r"
     { id := "c", title := "New thread", parentId := some "r", childrenIds := [],
       isCollapsed := false, messages := [], createdAt := 1, updatedAt := 1 }
     { id := "r", title := "Root", parentId := none, childrenIds := ["c"],
       isCollapsed := false, messages := [], createdAt := 0, updatedAt := 1 }
     5
     (wf_invariantSpec _ (reachable_wf _ (Reachable.add "r" "c" 1 (Reachable.create "r" 0 (by decide)) rfl (by decide))))
     rfl (by decide) rfl (by decide) rfl⟩

/-! ### A concrete invariant-satisfying tree with an empty-string node id -/

theorem falsyTree_nodes_eval :
    (addChild (addChild (createEmptyTree "r" 0) "r" "" 1) "" "c" 2).nodes =
      [("r", { id := "r", title := "Root", parentId := none, childrenIds := [""], isCollapsed := false, messages := [], createdAt := 0, updatedAt := 1 }),
       ("", { id := "", title := "New thread", parentId := some "r", childrenIds := ["c"], isCollapsed := false, messages := [], createdAt := 1, updatedAt := 2 }),
       ("c", { id := "c", title := "New thread", parentId := some "", childrenIds := [], isCollapsed := false, messages := [], createdAt := 2, updatedAt := 2 })] := rfl

theorem falsyTree_getNode_cases (k : String) (n : ChatNode)
    (h : getNode (addChild (addChild (createEmptyTree "r" 0) "r" "" 1) "" "c" 2).nodes k = some n) :
    (k = "r" ∧ n = { id := "r", title := "Root", parentId := none, childrenIds := [""], isCollapsed := false, messages := [], createdAt := 0, updatedAt := 1 }) ∨
    (k = "" ∧ n = { id := "", title := "New thread", parentId := some "r", childrenIds := ["c"], isCollapsed := false, messages := [], createdAt := 1, updatedAt := 2 }) ∨
    (k = "c" ∧ n = { id := "c", title := "New thread", parentId := some "", childrenIds := [], isCollapsed := false, messages := [], createdAt := 2, updatedAt := 2 }) := by
  rw [falsyTree_nodes_eval, getNode_cons] at h
  dsimp only at h
  by_cases h1 : "r" = k
  · rw [if_pos h1] at h
    injection h with h
    exact Or.inl ⟨h1.symm, h.symm⟩
  · rw [if_neg h1, getNode_cons] at h
    dsimp only at h
    by_cases h2 : "" = k
    · rw [if_pos h2] at h
      injection h with h
      exact Or.inr (Or.inl ⟨h2.symm, h.symm⟩)
    · rw [if_neg h2, getNode_cons] at h
      dsimp only at h
      by_cases h3 : "c" = k
      · rw [if_pos h3] at h
        injection h with h
        exact Or.inr (Or.inr ⟨h3.symm, h.symm⟩)
      · rw [if_neg h3] at h
        exact Option.noConfusion h

theorem invariantSpec_falsyTree :
    InvariantSpec (addChild (addChild (createEmptyTree "r" 0) "r" "" 1) "" "c" 2) := by
  have hcp : ∀ k n, getNode (addChild (addChild (createEmptyTree "r" 0) "r" "" 1) "" "c" 2).nodes k = some n →
      ∀ c ∈ n.childrenIds, ∃ cn, getNode (addChild (addChild (createEmptyTree "r" 0) "r" "" 1) "" "c" 2).nodes c = some cn ∧ cn.parentId = some k := by
    intro k n hn c hc
    rcases falsyTree_getNode_cases k n hn with ⟨hk, hn2⟩ | ⟨hk, hn2⟩ | ⟨hk, hn2⟩
    · subst hk
      rw [hn2] at hc
      have hc1 : c ∈ [""] := hc
      have hc2 : c = "" := List.mem_singleton.mp hc1
      subst hc2
      exact ⟨{ id := "", title := "New thread", parentId := some "r", childrenIds := ["c"], isCollapsed := false, messages := [], createdAt := 1, updatedAt := 2 }, rfl, rfl⟩
    · subst hk
      rw [hn2] at hc
      have hc1 : c ∈ ["c"] := hc
      have hc2 : c = "c" := List.mem_singleton.mp hc1
      subst hc2
      exact ⟨{ id := "c", title := "New thread", parentId := some "", childrenIds := [], isCollapsed := false, messages := [], createdAt := 2, updatedAt := 2 }, rfl, rfl⟩
    · subst hk
      rw [hn2] at hc
      have hc1 : c ∈ ([] : List String) := hc
      exact absurd hc1 (List.not_mem_nil c)
  refine ⟨⟨{ id := "r", title := "Root", parentId := none, childrenIds := [""], isCollapsed := false, messages := [], createdAt := 0, updatedAt := 1 }, rfl, rfl⟩, ?_, hcp, ?_, ?_, acyclic_of_cert _ hcp (fun k => if k = "r" then 0 else if k = "" then 1 else 2) ?_, rfl⟩
  · intro k n hn hp
    rcases falsyTree_getNode_cases k n hn with ⟨hk, hn2⟩ | ⟨hk, hn2⟩ | ⟨hk, hn2⟩
    · rw [hk]
      rfl
    · rw [hn2] at hp
      exact Option.noConfusion hp
    · rw [hn2] at hp
      exact Option.noConfusion hp
  · intro k n hn p hp
    rcases falsyTree_getNode_cases k n hn with ⟨hk, hn2⟩ | ⟨hk, hn2⟩ | ⟨hk, hn2⟩
    · rw [hn2] at hp
      exact Option.noConfusion hp
    · subst hk
      rw [hn2] at hp
      have hp1 : some "r" = some p := hp
      injection hp1 with hp2
      subst hp2
      exact ⟨{ id := "r", title := "Root", parentId := none, childrenIds := [""], isCollapsed := false, messages := [], createdAt := 0, updatedAt := 1 }, rfl, List.mem_singleton.mpr rfl⟩
    · subst hk
      rw [hn2] at hp
      have hp1 : some "" = some p := hp
      injection hp1 with hp2
      subst hp2
      exact ⟨{ id := "", title := "New thread", parentId := some "r", childrenIds := ["c"], isCollapsed := false, messages := [], createdAt := 1, updatedAt := 2 }, rfl, List.mem_singleton.mpr rfl⟩
  · intro k hk
    have hg1 : getNode (addChild (addChild (createEmptyTree "r" 0) "r" "" 1) "" "c" 2).nodes
        (addChild (addChild (createEmptyTree "r" 0) "r" "" 1) "" "c" 2).rootId =
        some { id := "r", title := "Root", parentId := none, childrenIds := [""], isCollapsed := false, messages := [], createdAt := 0, updatedAt := 1 } := rfl
    have hm1 : ("" : String) ∈ ({ id := "r", title := "Root", parentId := none, childrenIds := [""], isCollapsed := false, messages := [], createdAt := 0, updatedAt := 1 } : ChatNode).childrenIds :=
      List.mem_singleton.mpr rfl
    have hrE : Reach (addChild (addChild (createEmptyTree "r" 0) "r" "" 1) "" "c" 2).nodes
        (addChild (addChild (createEmptyTree "r" 0) "r" "" 1) "" "c" 2).rootId "" :=
      Reach.step (Reach.refl _) hg1 hm1
    have hg2 : getNode (addChild (addChild (createEmptyTree "r" 0) "r" "" 1) "" "c" 2).nodes "" =
        some { id := "", title := "New thread", parentId := some "r", childrenIds := ["c"], isCollapsed := false, messages := [], createdAt := 1, updatedAt := 2 } := rfl
    have hm2 : ("c" : String) ∈ ({ id := "", title := "New thread", parentId := some "r", childrenIds := ["c"], isCollapsed := false, messages := [], createdAt := 1, updatedAt := 2 } : ChatNode).childrenIds :=
      List.mem_singleton.mpr rfl
    have hrC : Reach (addChild (addChild (createEmptyTree "r" 0) "r" "" 1) "" "c" 2).nodes
        (addChild (addChild (createEmptyTree "r" 0) "r" "" 1) "" "c" 2).rootId "c" :=
      Reach.step hrE hg2 hm2
    obtain ⟨n, hn⟩ := Option.isSome_iff_exists.mp hk
    rcases falsyTree_getNode_cases k n hn with ⟨hk2, _⟩ | ⟨hk2, _⟩ | ⟨hk2, _⟩
    · subst hk2
      exact Reach.refl _
    · subst hk2
      exact hrE
    · subst hk2
      exact hrC
  · intro k n hn p hp
    rcases falsyTree_getNode_cases k n hn with ⟨hk, hn2⟩ | ⟨hk, hn2⟩ | ⟨hk, hn2⟩
    · rw [hn2] at hp
      exact Option.noConfusion hp
    · subst hk
      rw [hn2] at hp
      have hp1 : some "r" = some p := hp
      injection hp1 with hp2
      subst hp2
      decide
    · subst hk
      rw [hn2] at hp
      have hp1 : some "" = some p := hp
      injection hp1 with hp2
      subst hp2
      decide

theorem collectLoop_falsyTree :
    collectLoop (addChild (addChild (createEmptyTree "r" 0) "r" "" 1) "" "c" 2).nodes ["c"] [] = ["c"] := by
  rw [collectLoop_cons_some (addChild (addChild (createEmptyTree "r" 0) "r" "" 1) "" "c" 2).nodes "c" [] []
    { id := "c", title := "New thread", parentId := some "", childrenIds := [], isCollapsed := false, messages := [], createdAt := 2, updatedAt := 2 }
    (List.not_mem_nil _) rfl]
  exact collectLoop_nil _ _

theorem deleteSubtree_falsyTree :
    deleteSubtree (addChild (addChild (createEmptyTree "r" 0) "r" "" 1) "" "c" 2) "c" 5 =
      { rootId := "r", activeNodeId := "",
        nodes := [("r", { id := "r", title := "Root", parentId := none, childrenIds := [""], isCollapsed := false, messages := [], createdAt := 0, updatedAt := 1 }),
                  ("", { id := "", title := "New thread", parentId := some "r", childrenIds := ["c"], isCollapsed := false, messages := [], createdAt := 1, updatedAt := 2 })] } := by
  rw [deleteSubtree_of_falsy_parent (addChild (addChild (createEmptyTree "r" 0) "r" "" 1) "" "c" 2) "c" 5
    { id := "c", title := "New thread", parentId := some "", childrenIds := [], isCollapsed := false, messages := [], createdAt := 2, updatedAt := 2 }
    (by decide) rfl rfl]
  rw [collectLoop_falsyTree]
  decide

/-- C2 counterexample: the tree obtained by adding under the root a child
with the empty string as its generated id, and under that a child "c",
satisfies all structural invariants; "c" is a non-root existing node and
its parent "" exists, yet `deleteSubtree` leaves the parent record
entirely untouched ("c" is still listed among its `childrenIds` and its
`updatedAt` is not refreshed), because the source's truthiness guard
`if (parent && parentId)` treats the empty-string parent id as absent. -/
theorem c2_counterexample :
    InvariantSpec (addChild (addChild (createEmptyTree "r" 0) "r" "" 1) "" "c" 2) ∧
    getNode (addChild (addChild (createEmptyTree "r" 0) "r" "" 1) "" "c" 2).nodes "c" =
      some { id := "c", title := "New thread", parentId := some "", childrenIds := [], isCollapsed := false, messages := [], createdAt := 2, updatedAt := 2 } ∧
    ("c" : String) ≠ (addChild (addChild (createEmptyTree "r" 0) "r" "" 1) "" "c" 2).rootId ∧
    getNode (addChild (addChild (createEmptyTree "r" 0) "r" "" 1) "" "c" 2).nodes "" =
      some { id := "", title := "New thread", parentId := some "r", childrenIds := ["c"], isCollapsed := false, messages := [], createdAt := 1, updatedAt := 2 } ∧
    getNode (deleteSubtree (addChild (addChild (createEmptyTree "r" 0) "r" "" 1) "" "c" 2) "c" 5).nodes "" =
      some { id := "", title := "New thread", parentId := some "r", childrenIds := ["c"], isCollapsed := false, messages := [], createdAt := 1, updatedAt := 2 } ∧
    ("c" : String) ∈ ({ id := "", title := "New thread", parentId := some "r", childrenIds := ["c"], isCollapsed := false, messages := [], createdAt := 1, updatedAt := 2 } : ChatNode).childrenIds ∧
    ({ id := "", title := "New thread", parentId := some "r", childrenIds := ["c"], isCollapsed := false, messages := [], createdAt := 1, updatedAt := 2 } : ChatNode).updatedAt ≠ 5 := by
  refine ⟨invariantSpec_falsyTree, rfl, by decide, rfl, ?_, by decide, by decide⟩
  rw [deleteSubtree_falsyTree]
  rfl

/-! ### Lemmas about the capture worklist `captureLoop` -/

theorem captureLoop_nil (nodes : NodeMap) (acc : NodeMap) :
    captureLoop nodes [] acc = acc := by
  rw [captureLoop.eq_def]

theorem captureLoop_cons_none (nodes : NodeMap) (curId : String) (stack : List String)
    (acc : NodeMap) (h : getNode nodes curId = none) :
    captureLoop nodes (curId :: stack) acc = captureLoop nodes stack acc := by
  rw [captureLoop.eq_2]
  split
  · rfl
  · rename_i cur heq
    rw [h] at heq
    exact Option.noConfusion heq

theorem captureLoop_cons_dup (nodes : NodeMap) (curId : String) (stack : List String)
    (acc : NodeMap) (cur : ChatNode) (h : getNode nodes curId = some cur)
    (hdup : (getNode acc curId).isSome) :
    captureLoop nodes (curId :: stack) acc = captureLoop nodes stack acc := by
  rw [captureLoop.eq_2]
  split
  · rfl
  · rename_i cur2 heq
    rw [dif_pos hdup]

theorem captureLoop_cons_new (nodes : NodeMap) (curId : String) (stack : List String)
    (acc : NodeMap) (cur : ChatNode) (h : getNode nodes curId = some cur)
    (hnew : ¬ (getNode acc curId).isSome = true) :
    captureLoop nodes (curId :: stack) acc
      = captureLoop nodes (cur.childrenIds.reverse ++ stack) (acc ++ [(curId, cur)]) := by
  rw [captureLoop.eq_2]
  split
  · rename_i heq
    rw [h] at heq
    exact Option.noConfusion heq
  · rename_i cur2 heq
    rw [dif_neg hnew]
    rw [h] at heq
    injection heq with heq
    rw [heq]

theorem captureLoop_values (nodes : NodeMap) :
    ∀ stack acc, (∀ x v, getNode acc x = some v → getNode nodes x = some v) →
    ∀ x v, getNode (captureLoop nodes stack acc) x = some v → getNode nodes x = some v := by
  intro stack acc
  induction stack, acc using captureLoop.induct nodes with
  | case1 acc =>
    intro hinv x v hx
    rw [captureLoop_nil] at hx
    exact hinv x v hx
  | case2 curId stack acc hcur ih =>
    intro hinv x v hx
    rw [captureLoop_cons_none nodes curId stack acc hcur] at hx
    exact ih hinv x v hx
  | case3 curId stack acc cur hcur hdup ih =>
    intro hinv x v hx
    rw [captureLoop_cons_dup nodes curId stack acc cur hcur hdup] at hx
    exact ih hinv x v hx
  | case4 curId stack acc cur hcur hnew ih =>
    intro hinv x v hx
    rw [captureLoop_cons_new nodes curId stack acc cur hcur hnew] at hx
    refine ih ?_ x v hx
    intro y w hy
    cases hacc : getNode acc y with
    | some w2 =>
      rw [getNode_append_of_some _ _ _ _ hacc] at hy
      injection hy with hy
      rw [← hy]
      exact hinv y w2 hacc
    | none =>
      rw [getNode_append_of_none _ _ _ hacc, getNode_cons] at hy
      by_cases hyc : curId = y
      · rw [if_pos hyc] at hy
        injection hy with hy
        rw [← hy, ← hyc]
        exact hcur
      · rw [if_neg hyc] at hy
        exact Option.noConfusion hy

theorem captureLoop_keys_nodup (nodes : NodeMap) :
    ∀ stack acc, (keysOf acc).Nodup → (keysOf (captureLoop nodes stack acc)).Nodup := by
  intro stack acc
  induction stack, acc using captureLoop.induct nodes with
  | case1 acc =>
    intro h
    rw [captureLoop_nil]
    exact h
  | case2 curId stack acc hcur ih =>
    intro h
    rw [captureLoop_cons_none nodes curId stack acc hcur]
    exact ih h
  | case3 curId stack acc cur hcur hdup ih =>
    intro h
    rw [captureLoop_cons_dup nodes curId stack acc cur hcur hdup]
    exact ih h
  | case4 curId stack acc cur hcur hnew ih =>
    intro h
    rw [captureLoop_cons_new nodes curId stack acc cur hcur hnew]
    apply ih
    have hkeys : keysOf (acc ++ [(curId, cur)]) = keysOf acc ++ [curId] := by
      unfold keysOf
      rw [List.map_append]
      rfl
    rw [hkeys]
    have hnotin : curId ∉ keysOf acc := by
      intro hc
      exact hnew ((getNode_isSome_iff acc curId).mpr hc)
    simp [List.nodup_append, h, hnotin]

theorem captureLoop_mono (nodes : NodeMap) :
    ∀ stack acc x, (getNode acc x).isSome →
      (getNode (captureLoop nodes stack acc) x).isSome := by
  intro stack acc
  induction stack, acc using captureLoop.induct nodes with
  | case1 acc =>
    intro x hx
    rw [captureLoop_nil]
    exact hx
  | case2 curId stack acc hcur ih =>
    intro x hx
    rw [captureLoop_cons_none nodes curId stack acc hcur]
    exact ih x hx
  | case3 curId stack acc cur hcur hdup ih =>
    intro x hx
    rw [captureLoop_cons_dup nodes curId stack acc cur hcur hdup]
    exact ih x hx
  | case4 curId stack acc cur hcur hnew ih =>
    intro x hx
    rw [captureLoop_cons_new nodes curId stack acc cur hcur hnew]
    apply ih
    obtain ⟨v, hv⟩ := Option.isSome_iff_exists.mp hx
    rw [getNode_append_of_some _ _ _ _ hv]
    rfl

theorem captureLoop_closed (nodes : NodeMap) :
    ∀ stack acc,
    (∀ a, (getNode acc a).isSome → ∀ n, getNode nodes a = some n →
      ∀ c ∈ n.childrenIds, (getNode nodes c).isSome →
        ((getNode acc c).isSome ∨ c ∈ stack)) →
    ∀ x, (getNode (captureLoop nodes stack acc) x).isSome →
      ∀ n, getNode nodes x = some n → ∀ c ∈ n.childrenIds, (getNode nodes c).isSome →
        (getNode (captureLoop nodes stack acc) c).isSome := by
  intro stack acc
  induction stack, acc using captureLoop.induct nodes with
  | case1 acc =>
    intro hinv x hx n hn c hc hcex
    rw [captureLoop_nil] at hx ⊢
    rcases hinv x hx n hn c hc hcex with h1 | h1
    · exact h1
    · exact absurd h1 (List.not_mem_nil c)
  | case2 curId stack acc hcur ih =>
    intro hinv
    rw [captureLoop_cons_none nodes curId stack acc hcur]
    apply ih
    intro a ha n hn c hc hcex
    rcases hinv a ha n hn c hc hcex with h1 | h1
    · exact Or.inl h1
    · rcases List.mem_cons.mp h1 with h2 | h2
      · subst h2
        rw [hcur] at hcex
        exact Bool.noConfusion hcex
      · exact Or.inr h2
  | case3 curId stack acc cur hcur hdup ih =>
    intro hinv
    rw [captureLoop_cons_dup nodes curId stack acc cur hcur hdup]
    apply ih
    intro a ha n hn c hc hcex
    rcases hinv a ha n hn c hc hcex with h1 | h1
    · exact Or.inl h1
    · rcases List.mem_cons.mp h1 with h2 | h2
      · subst h2
        exact Or.inl hdup
      · exact Or.inr h2
  | case4 curId stack acc cur hcur hnew ih =>
    intro hinv
    rw [captureLoop_cons_new nodes curId stack acc cur hcur hnew]
    apply ih
    intro a ha n hn c hc hcex
    have happkey : ∀ y, (getNode (acc ++ [(curId, cur)]) y).isSome ↔
        ((getNode acc y).isSome ∨ y = curId) := by
      intro y
      cases hacc : getNode acc y with
      | some w =>
        rw [getNode_append_of_some _ _ _ _ hacc]
        constructor
        · intro _
          exact Or.inl rfl
        · intro _
          rfl
      | none =>
        rw [getNode_append_of_none _ _ _ hacc, getNode_cons]
        by_cases hyc : curId = y
        · rw [if_pos hyc]
          constructor
          · intro _
            exact Or.inr hyc.symm
          · intro _
            rfl
        · rw [if_neg hyc]
          constructor
          · intro hfalse
            exact Bool.noConfusion hfalse
          · intro hor
            rcases hor with h2 | h2
            · exact Bool.noConfusion h2
            · exact absurd h2.symm hyc
    rcases (happkey a).mp ha with h1 | h1
    · rcases hinv a h1 n hn c hc hcex with h2 | h2
      · exact Or.inl ((happkey c).mpr (Or.inl h2))
      · rcases List.mem_cons.mp h2 with h3 | h3
        · subst h3
          exact Or.inl ((happkey c).mpr (Or.inr rfl))
        · exact Or.inr (List.mem_append.mpr (Or.inr h3))
    · subst h1
      rw [hcur] at hn
      injection hn with hn
      subst hn
      exact Or.inr (List.mem_append.mpr (Or.inl (List.mem_reverse.mpr hc)))

theorem captureLoop_start (nodes : NodeMap) (start : String) (cur : ChatNode)
    (h : getNode nodes start = some cur) :
    (getNode (captureLoop nodes [start] []) start).isSome := by
  rw [captureLoop_cons_new nodes start [] [] cur h (by intro hc; exact Bool.noConfusion hc)]
  apply captureLoop_mono
  rw [List.nil_append, getNode_cons]
  rw [if_pos rfl]
  rfl

theorem captureLoop_complete (nodes : NodeMap) (start : String) (cur : ChatNode)
    (hstart : getNode nodes start = some cur)
    (hex : ∀ x, Reach nodes start x → (getNode nodes x).isSome) :
    ∀ x, Reach nodes start x → (getNode (captureLoop nodes [start] []) x).isSome := by
  intro x hx
  induction hx with
  | refl => exact captureLoop_start nodes start cur hstart
  | step hab hnb hcb ih =>
    rename_i b c nb
    refine captureLoop_closed nodes [start] [] ?_ b ih nb hnb c hcb
      (hex c (Reach.step hab hnb hcb))
    intro a ha
    exact absurd ha (by intro hc; exact Bool.noConfusion hc)

theorem captureLoop_sound (nodes : NodeMap) (start : String) :
    ∀ stack acc, (∀ s ∈ stack, Reach nodes start s) →
    (∀ x, (getNode acc x).isSome → Reach nodes start x) →
    ∀ x, (getNode (captureLoop nodes stack acc) x).isSome → Reach nodes start x := by
  intro stack acc
  induction stack, acc using captureLoop.induct nodes with
  | case1 acc =>
    intro _ hacc x hx
    rw [captureLoop_nil] at hx
    exact hacc x hx
  | case2 curId stack acc hcur ih =>
    intro hstack hacc x hx
    rw [captureLoop_cons_none nodes curId stack acc hcur] at hx
    exact ih (fun s hs => hstack s (List.mem_cons_of_mem _ hs)) hacc x hx
  | case3 curId stack acc cur hcur hdup ih =>
    intro hstack hacc x hx
    rw [captureLoop_cons_dup nodes curId stack acc cur hcur hdup] at hx
    exact ih (fun s hs => hstack s (List.mem_cons_of_mem _ hs)) hacc x hx
  | case4 curId stack acc cur hcur hnew ih =>
    intro hstack hacc x hx
    rw [captureLoop_cons_new nodes curId stack acc cur hcur hnew] at hx
    have hcurReach : Reach nodes start curId := hstack curId (List.mem_cons_self _ _)
    refine ih ?_ ?_ x hx
    · intro s hs
      rcases List.mem_append.mp hs with h1 | h1
      · exact Reach.step hcurReach hcur (List.mem_reverse.mp h1)
      · exact hstack s (List.mem_cons_of_mem _ h1)
    · intro y hy
      cases hacc2 : getNode acc y with
      | some w =>
        exact hacc y (by rw [hacc2]; rfl)
      | none =>
        rw [getNode_append_of_none _ _ _ hacc2, getNode_cons] at hy
        by_cases hyc : curId = y
        · rw [← hyc]
          exact hcurReach
        · rw [if_neg hyc] at hy
          exact absurd hy (by intro hc; exact Bool.noConfusion hc)

/-! ### Lemmas about spreadMerge, and list splicing -/

theorem spreadMerge_of_none (extra : NodeMap) :
    ∀ (m : NodeMap) (x : String), getNode extra x = none →
      getNode (spreadMerge m extra) x = getNode m x := by
  induction extra with
  | nil => intro m x _; rfl
  | cons e rest ih =>
    intro m x hx
    rw [getNode_cons] at hx
    by_cases hex : e.1 = x
    · rw [if_pos hex] at hx
      exact Option.noConfusion hx
    · rw [if_neg hex] at hx
      show getNode (spreadMerge (updateOrAppend m e.1 e.2) rest) x = getNode m x
      rw [ih _ x hx]
      exact getNode_updateOrAppend_ne _ _ _ _ (fun hc => hex hc.symm)

theorem spreadMerge_of_some (extra : NodeMap) :
    ∀ (m : NodeMap) (x : String) (v : ChatNode), (keysOf extra).Nodup →
      getNode extra x = some v → getNode (spreadMerge m extra) x = some v := by
  induction extra with
  | nil => intro m x v _ hx; exact Option.noConfusion hx
  | cons e rest ih =>
    intro m x v hnd hx
    have hnd2 : (keysOf rest).Nodup ∧ e.1 ∉ keysOf rest := by
      unfold keysOf at hnd ⊢
      rw [List.map_cons] at hnd
      exact ⟨hnd.of_cons, (List.nodup_cons.mp hnd).1⟩
    rw [getNode_cons] at hx
    by_cases hex : e.1 = x
    · rw [if_pos hex] at hx
      injection hx with hx
      show getNode (spreadMerge (updateOrAppend m e.1 e.2) rest) x = some v
      have hrest : getNode rest x = none := by
        rw [getNode_eq_none_iff]
        rw [← hex]
        exact hnd2.2
      rw [spreadMerge_of_none rest _ x hrest, ← hex, hx]
      exact getNode_updateOrAppend_self _ _ _
    · rw [if_neg hex] at hx
      exact ih _ x v hnd2.1 hx

theorem filter_take_insert (l : List String) (a : String) :
    ∀ (hmem : a ∈ l) (hnd : l.Nodup),
    ∃ i, l.findIdx? (fun c => decide (c = a)) = some i ∧
      i ≤ (l.filter (fun c => decide (c ≠ a))).length ∧
      (l.filter (fun c => decide (c ≠ a))).take i ++
        a :: (l.filter (fun c => decide (c ≠ a))).drop i = l := by
  induction l with
  | nil => intro hmem _; exact absurd hmem (List.not_mem_nil a)
  | cons hd tl ih =>
    intro hmem hnd
    by_cases hhd : hd = a
    · refine ⟨0, ?_, ?_, ?_⟩
      · rw [List.findIdx?_cons, if_pos (decide_eq_true hhd)]
      · exact Nat.zero_le _
      · rw [List.filter_cons, if_neg (by simp [hhd])]
        have htl : tl.filter (fun c => decide (c ≠ a)) = tl := by
          apply List.filter_eq_self.mpr
          intro b hb
          apply decide_eq_true
          intro hc
          rw [← hhd] at hc
          rw [hc] at hb
          exact (List.nodup_cons.mp hnd).1 hb
        rw [htl]
        simp [hhd]
    · have hmem2 : a ∈ tl := by
        rcases List.mem_cons.mp hmem with h1 | h1
        · exact absurd h1.symm hhd
        · exact h1
      obtain ⟨i, hfind, hle, heq⟩ := ih hmem2 (List.nodup_cons.mp hnd).2
      refine ⟨i + 1, ?_, ?_, ?_⟩
      · rw [List.findIdx?_cons, if_neg (by simp [hhd]), List.findIdx?_succ, hfind]
        rfl
      · rw [List.filter_cons, if_pos (decide_eq_true hhd)]
        rw [List.length_cons]
        omega
      · rw [List.filter_cons, if_pos (decide_eq_true hhd)]
        rw [List.take_succ_cons, List.drop_succ_cons]
        rw [List.cons_append]
        rw [heq]

/-! ### Unfolding lemmas for capture and restore -/

theorem captureDeletedSubtree_of_some (T : ChatTree) (nodeId : String) (node pn : ChatNode)
    (p : String) (i : Nat) (hn : getNode T.nodes nodeId = some node) (hroot : nodeId ≠ T.rootId)
    (hp : node.parentId = some p) (hpne : p ≠ "") (hpn : getNode T.nodes p = some pn)
    (hfind : pn.childrenIds.findIdx? (fun c => decide (c = nodeId)) = some i) :
    captureDeletedSubtree T nodeId =
      some { rootId := nodeId, parentId := some p, parentIndex := (i : Int),
             nodes := captureLoop T.nodes [nodeId] [] } := by
  unfold captureDeletedSubtree
  rw [hn]
  dsimp only
  rw [if_neg hroot, hp]
  dsimp only
  rw [if_neg hpne, hpn]
  dsimp only
  rw [hfind]

theorem restoreDeletedSubtree_unfold (t : ChatTree) (s : DeletedSnapshot) (time : Nat)
    (p : String) (parent : ChatNode) (i : Nat) (hsp : s.parentId = some p) (hpne : p ≠ "")
    (hparent : getNode t.nodes p = some parent) (hnotmem : s.rootId ∉ parent.childrenIds)
    (hidx : s.parentIndex = (i : Int)) (hle : i ≤ parent.childrenIds.length) :
    restoreDeletedSubtree t s time =
      { t with
        activeNodeId := s.rootId
        nodes := updateOrAppend (spreadMerge t.nodes s.nodes) p
          { parent with
            childrenIds := parent.childrenIds.take i ++ s.rootId :: parent.childrenIds.drop i
            updatedAt := time } } := by
  unfold restoreDeletedSubtree
  rw [hsp]
  dsimp only
  rw [if_neg hpne]
  rw [hparent]
  dsimp only
  rw [if_neg hnotmem]
  have hcond : 0 ≤ s.parentIndex ∧ s.parentIndex ≤ (parent.childrenIds.length : Int) := by
    rw [hidx]
    constructor
    · exact Int.natCast_nonneg i
    · exact_mod_cast hle
  rw [if_pos hcond, hidx]
  rfl

theorem captureDeletedSubtree_of_falsy_parent (T : ChatTree) (nodeId : String)
    (node : ChatNode) (hn : getNode T.nodes nodeId = some node) (hroot : nodeId ≠ T.rootId)
    (hp : node.parentId = some "") :
    captureDeletedSubtree T nodeId =
      some { rootId := nodeId, parentId := some "", parentIndex := -1, nodes := captureLoop T.nodes [nodeId] [] } := by
  unfold captureDeletedSubtree
  rw [hn]
  dsimp only
  rw [if_neg hroot, hp]
  dsimp only
  rw [if_pos rfl]

theorem restoreDeletedSubtree_of_falsy_parent (t : ChatTree) (s : DeletedSnapshot)
    (time : Nat) (hs : s.parentId = some "") : restoreDeletedSubtree t s time = t := by
  unfold restoreDeletedSubtree
  rw [hs]
  dsimp only
  rw [if_pos rfl]

/-! ### Claim C3: delete / undo-restore round trip -/

/-- C3 (amended): for every tree satisfying the invariants (with
duplicate-free children lists) and every node whose parent exists, has a
nonempty id (JS-truthy; generated ids always are) and is outside the
deleted subtree, capturing a snapshot, deleting, and restoring yields a
tree with the same node set and the same messages in every node; the
deleted id is re-inserted into its former parent's `childrenIds` at the
recorded index, reproducing them exactly; the result equals the original
tree pointwise except for the parent's `updatedAt` and the active node,
which becomes the restored subtree's root.  For an empty-string parent id
the source records index -1 and restore is a no-op (see the C3
counterexample). -/
theorem c3_capture_delete_restore (T : ChatTree) (nodeId p : String) (node pn : ChatNode)
    (td tr : Nat) (hinv : Invariants T) (hn : getNode T.nodes nodeId = some node)
    (hp : node.parentId = some p) (hpne : p ≠ "") (hpn : getNode T.nodes p = some pn)
    (hpreach : ¬ Reach T.nodes nodeId p) :
    RestoreSpec T nodeId p pn td tr := by
  obtain ⟨hspec, hchildNodup⟩ := hinv
  have hroot : nodeId ≠ T.rootId := by
    intro he
    obtain ⟨r, hr, hrp⟩ := hspec.1
    rw [← he, hn] at hr
    injection hr with hr
    rw [← hr] at hrp
    rw [hrp] at hp
    exact Option.noConfusion hp
  have hnodemem : nodeId ∈ pn.childrenIds := by
    obtain ⟨pn2, hpn2, hmem⟩ := hspec.2.2.2.1 nodeId node hn p hp
    rw [hpn] at hpn2
    injection hpn2 with hpn2
    rw [← hpn2] at hmem
    exact hmem
  obtain ⟨i, hfind, hle, hsplice⟩ :=
    filter_take_insert pn.childrenIds nodeId hnodemem (hchildNodup p pn hpn)
  have hDreach := collectLoop_mem_iff_reach T.nodes nodeId
  have hstartD : nodeId ∈ collectLoop T.nodes [nodeId] [] := collectLoop_start_mem T.nodes nodeId
  have hfeq : pn.childrenIds.filter (fun cid => decide (cid ∉ collectLoop T.nodes [nodeId] []))
      = pn.childrenIds.filter (fun c => decide (c ≠ nodeId)) := by
    apply List.filter_congr
    intro c hc
    apply decide_eq_decide.mpr
    constructor
    · intro hnotin he
      exact hnotin (he ▸ hstartD)
    · intro hne hcD
      exact hne (reach_child_of_survivor T nodeId p c pn hspec hpreach hpn hc
        ((hDreach c).mp hcD))
  have hchar := deleteSubtree_nodes_char T nodeId td node pn p hroot hn hp hpne hpn
  have hact := deleteSubtree_active_char T nodeId td node pn p hroot hn hp hpne hpn
  have hsnapval : ∀ x v, getNode (captureLoop T.nodes [nodeId] []) x = some v →
      getNode T.nodes x = some v :=
    captureLoop_values T.nodes [nodeId] [] (fun x v hx => Option.noConfusion hx)
  have hsnapcomplete : ∀ x, Reach T.nodes nodeId x →
      (getNode (captureLoop T.nodes [nodeId] []) x).isSome :=
    captureLoop_complete T.nodes nodeId node hn
      (fun x hx => reach_getNode_isSome T nodeId x node hspec hn hx)
  have hsnapnodup : (keysOf (captureLoop T.nodes [nodeId] [])).Nodup :=
    captureLoop_keys_nodup T.nodes [nodeId] [] List.nodup_nil
  have hTdp : getNode (deleteSubtree T nodeId td).nodes p =
      some { pn with childrenIds := pn.childrenIds.filter (fun c => decide (c ≠ nodeId)), updatedAt := td } := by
    rw [hchar p, if_pos rfl, hfeq]
  have hnotmem2 : nodeId ∉ pn.childrenIds.filter (fun c => decide (c ≠ nodeId)) := by
    intro hc
    exact (of_decide_eq_true (List.mem_filter.mp hc).2) rfl
  have hrmain := restoreDeletedSubtree_unfold (deleteSubtree T nodeId td)
    { rootId := nodeId, parentId := some p, parentIndex := (i : Int), nodes := captureLoop T.nodes [nodeId] [] } tr p
    { pn with childrenIds := pn.childrenIds.filter (fun c => decide (c ≠ nodeId)), updatedAt := td }
    i rfl hpne hTdp hnotmem2 rfl hle
  dsimp only at hrmain
  rw [hsplice] at hrmain
  have hRnodes : ∀ x,
      getNode (restoreDeletedSubtree (deleteSubtree T nodeId td)
        { rootId := nodeId, parentId := some p, parentIndex := (i : Int), nodes := captureLoop T.nodes [nodeId] [] } tr).nodes x =
      if x = p then some { pn with updatedAt := tr } else getNode T.nodes x := by
    intro x
    rw [hrmain]
    dsimp only
    by_cases hx : x = p
    · subst hx
      rw [if_pos rfl]
      exact getNode_updateOrAppend_self _ _ _
    · rw [if_neg hx, getNode_updateOrAppend_ne _ _ _ _ hx]
      cases hgx : getNode (captureLoop T.nodes [nodeId] []) x with
      | some v =>
        rw [spreadMerge_of_some _ _ _ _ hsnapnodup hgx]
        exact (hsnapval x v hgx).symm
      | none =>
        rw [spreadMerge_of_none _ _ _ hgx, hchar x, if_neg hx]
        have hxnotD : x ∉ collectLoop T.nodes [nodeId] [] := by
          intro hc
          have hsome := hsnapcomplete x ((hDreach x).mp hc)
          rw [hgx] at hsome
          exact Bool.noConfusion hsome
        rw [if_neg hxnotD]
  unfold RestoreSpec
  refine ⟨{ rootId := nodeId, parentId := some p, parentIndex := (i : Int), nodes := captureLoop T.nodes [nodeId] [] },
    captureDeletedSubtree_of_some T nodeId node pn p i hn hroot hp hpne hpn hfind,
    rfl, rfl, ⟨i, hfind, rfl⟩, ?_, ?_, ?_, ?_, ?_, ?_⟩
  · rw [hrmain]
    exact hact.2
  · rw [hrmain]
  · rw [hRnodes p, if_pos rfl]
  · intro x hx
    rw [hRnodes x, if_neg hx]
  · intro x
    rw [hRnodes x]
    by_cases hx : x = p
    · subst hx
      rw [if_pos rfl, hpn]
      rfl
    · rw [if_neg hx]
  · intro x nx nx2 hnx hnx2
    rw [hRnodes x] at hnx2
    by_cases hx : x = p
    · subst hx
      rw [if_pos rfl] at hnx2
      injection hnx2 with h2
      rw [hpn] at hnx
      injection hnx with h3
      rw [← h2, ← h3]
    · rw [if_neg hx, hnx] at hnx2
      injection hnx2 with h2
      rw [← h2]

/-- Witness for C3 at a concrete two-node tree. -/
theorem c3_witness :
    Invariants (addChild (createEmptyTree "r" 0) "r" "c" 1) ∧
    getNode (addChild (createEmptyTree "r" 0) "r" "c" 1).nodes "c" =
      some { id := "c", title := "New thread", parentId := some "r", childrenIds := [], isCollapsed := false, messages := [], createdAt := 1, updatedAt := 1 } ∧
    RestoreSpec (addChild (createEmptyTree "r" 0) "r" "c" 1) "c" "r"
      { id := "r", title := "Root", parentId := none, childrenIds := ["c"], isCollapsed := false, messages := [], createdAt := 0, updatedAt := 1 } 5 6 :=
  ⟨wf_invariants _ (reachable_wf _ (Reachable.add "r" "c" 1 (Reachable.create "r" 0 (by decide)) rfl (by decide))),
   rfl,
   c3_capture_delete_restore (addChild (createEmptyTree "r" 0) "r" "c" 1) "c" "r"
     { id := "c", title := "New thread", parentId := some "r", childrenIds := [], isCollapsed := false, messages := [], createdAt := 1, updatedAt := 1 }
     { id := "r", title := "Root", parentId := none, childrenIds := ["c"], isCollapsed := false, messages := [], createdAt := 0, updatedAt := 1 }
     5 6
     (wf_invariants _ (reachable_wf _ (Reachable.add "r" "c" 1 (Reachable.create "r" 0 (by decide)) rfl (by decide))))
     rfl rfl (by decide) rfl
     (reach_not_parent (addChild (createEmptyTree "r" 0) "r" "c" 1) "c" "r"
       { id := "c", title := "New thread", parentId := some "r", childrenIds := [], isCollapsed := false, messages := [], createdAt := 1, updatedAt := 1 }
       (wf_invariantSpec _ (reachable_wf _ (Reachable.add "r" "c" 1 (Reachable.create "r" 0 (by decide)) rfl (by decide))))
       rfl rfl)⟩

theorem captureLoop_falsyTree :
    captureLoop (addChild (addChild (createEmptyTree "r" 0) "r" "" 1) "" "c" 2).nodes ["c"] [] =
      [("c", { id := "c", title := "New thread", parentId := some "", childrenIds := [], isCollapsed := false, messages := [], createdAt := 2, updatedAt := 2 })] := by
  rw [captureLoop_cons_new (addChild (addChild (createEmptyTree "r" 0) "r" "" 1) "" "c" 2).nodes "c" [] []
    { id := "c", title := "New thread", parentId := some "", childrenIds := [], isCollapsed := false, messages := [], createdAt := 2, updatedAt := 2 }
    rfl (by decide)]
  exact captureLoop_nil _ _

/-- C3 counterexample: at the invariant-satisfying tree whose middle node
has the empty string as its generated id, deleting its child "c" and
restoring the captured snapshot does not reproduce the original tree: the
snapshot records `parentIndex = -1` (the capture's truthiness test
`parent?.childrenIds.indexOf(nodeId) ?? -1` reads the `parentId ? ... :
undefined` guard, which treats the empty-string parent id as absent), and
`restoreDeletedSubtree` hits its `if (!parentId) return t` guard and is a
no-op, so the deleted node "c" is still gone after the round trip. -/
theorem c3_counterexample :
    InvariantSpec (addChild (addChild (createEmptyTree "r" 0) "r" "" 1) "" "c" 2) ∧
    getNode (addChild (addChild (createEmptyTree "r" 0) "r" "" 1) "" "c" 2).nodes "c" =
      some { id := "c", title := "New thread", parentId := some "", childrenIds := [], isCollapsed := false, messages := [], createdAt := 2, updatedAt := 2 } ∧
    ("c" : String) ≠ (addChild (addChild (createEmptyTree "r" 0) "r" "" 1) "" "c" 2).rootId ∧
    getNode (addChild (addChild (createEmptyTree "r" 0) "r" "" 1) "" "c" 2).nodes "" =
      some { id := "", title := "New thread", parentId := some "r", childrenIds := ["c"], isCollapsed := false, messages := [], createdAt := 1, updatedAt := 2 } ∧
    (¬ Reach (addChild (addChild (createEmptyTree "r" 0) "r" "" 1) "" "c" 2).nodes "c" "") ∧
    captureDeletedSubtree (addChild (addChild (createEmptyTree "r" 0) "r" "" 1) "" "c" 2) "c" =
      some { rootId := "c", parentId := some "", parentIndex := -1,
             nodes := [("c", { id := "c", title := "New thread", parentId := some "", childrenIds := [], isCollapsed := false, messages := [], createdAt := 2, updatedAt := 2 })] } ∧
    restoreDeletedSubtree (deleteSubtree (addChild (addChild (createEmptyTree "r" 0) "r" "" 1) "" "c" 2) "c" 5)
      { rootId := "c", parentId := some "", parentIndex := -1,
        nodes := [("c", { id := "c", title := "New thread", parentId := some "", childrenIds := [], isCollapsed := false, messages := [], createdAt := 2, updatedAt := 2 })] } 6 =
      deleteSubtree (addChild (addChild (createEmptyTree "r" 0) "r" "" 1) "" "c" 2) "c" 5 ∧
    getNode (restoreDeletedSubtree (deleteSubtree (addChild (addChild (createEmptyTree "r" 0) "r" "" 1) "" "c" 2) "c" 5)
      { rootId := "c", parentId := some "", parentIndex := -1,
        nodes := [("c", { id := "c", title := "New thread", parentId := some "", childrenIds := [], isCollapsed := false, messages := [], createdAt := 2, updatedAt := 2 })] } 6).nodes "c" = none := by
  have hrest : restoreDeletedSubtree (deleteSubtree (addChild (addChild (createEmptyTree "r" 0) "r" "" 1) "" "c" 2) "c" 5)
      { rootId := "c", parentId := some "", parentIndex := -1,
        nodes := [("c", { id := "c", title := "New thread", parentId := some "", childrenIds := [], isCollapsed := false, messages := [], createdAt := 2, updatedAt := 2 })] } 6 =
      deleteSubtree (addChild (addChild (createEmptyTree "r" 0) "r" "" 1) "" "c" 2) "c" 5 :=
    restoreDeletedSubtree_of_falsy_parent _ _ 6 rfl
  refine ⟨invariantSpec_falsyTree, rfl, by decide, rfl, ?_, ?_, hrest, ?_⟩
  · exact reach_not_parent (addChild (addChild (createEmptyTree "r" 0) "r" "" 1) "" "c" 2) "c" ""
      { id := "c", title := "New thread", parentId := some "", childrenIds := [], isCollapsed := false, messages := [], createdAt := 2, updatedAt := 2 }
      invariantSpec_falsyTree rfl rfl
  · rw [captureDeletedSubtree_of_falsy_parent (addChild (addChild (createEmptyTree "r" 0) "r" "" 1) "" "c" 2) "c"
      { id := "c", title := "New thread", parentId := some "", childrenIds := [], isCollapsed := false, messages := [], createdAt := 2, updatedAt := 2 }
      rfl (by decide) rfl]
    rw [captureLoop_falsyTree]
  · rw [hrest, deleteSubtree_falsyTree]
    rfl
